import Mathlib

/-!
Verification of the NTPI dumper (Go version) against its specification.

Bytes are modelled as `Nat` (values < 256 in real runs; the theorems hold
for arbitrary `Nat` entries where stated).  Go byte slices become
`List Nat`; slicing `s[a:b]` becomes `(s.drop a).take (b - a)`; Go's
`binary.Read` of little-endian fixed-width integers becomes `leNat` over
the corresponding byte range.  The AES block cipher and the LZMA2 library
are external dependencies of the repository (crypto/aes, ulikunitz/xz);
they are passed as explicit function parameters, so every theorem below
holds for every instantiation of them.  Fallible Go functions returning
`(T, error)` become `Except String T`; error message texts are abbreviated
constants.  Loops are embedded as fuel-indexed structural recursions; the
wrappers pick fuel that is proved sufficient.
-/

namespace NTPIDump

/-- Little-endian interpretation of a byte list as a natural number
(models Go `binary.LittleEndian` field reads). -/
def leNat : List Nat → Nat
  | [] => 0
  | b :: bs => b + 256 * leNat bs

/-- The ASCII bytes of the magic string of NTEncode headers, `"NTENCODE"`. -/
def ntencodeMagic : List Nat := [78, 84, 69, 78, 67, 79, 68, 69]

/-- The ASCII bytes of the magic string of the file header, `"NTPI"`. -/
def ntpiMagic : List Nat := [78, 84, 80, 73]

/-- Split a byte list into 16-byte blocks (structural fuel = list length).
Models the block traversal of Go `cipher.NewCBCDecrypter(...).CryptBlocks`;
callers always pass data whose length is a multiple of 16. -/
def toBlocksAux : Nat → List Nat → List (List Nat)
  | 0, _ => []
  | _, [] => []
  | n + 1, l => l.take 16 :: toBlocksAux n (l.drop 16)

/-- 16-byte blocks of a byte list. -/
def toBlocks (l : List Nat) : List (List Nat) := toBlocksAux l.length l

/-- CBC decryption over a list of ciphertext blocks, given the raw block
decryption function `dec key ctBlock` (models `crypto/aes` + CBC chaining:
each plaintext block is the block decryption XORed with the previous
ciphertext block, the IV for the first). -/
def cbcDecryptBlocks (dec : List Nat → List Nat → List Nat) (key : List Nat) :
    List Nat → List (List Nat) → List Nat
  | _, [] => []
  | prev, c :: cs => List.zipWith Nat.xor (dec key c) prev ++ cbcDecryptBlocks dec key c cs

/-- AES-CBC decryption of a full byte list (no padding handling). -/
def cbcDecrypt (dec : List Nat → List Nat → List Nat) (key iv ct : List Nat) : List Nat :=
  cbcDecryptBlocks dec key iv (toBlocks ct)

/-- Embeds `removePKCS7Padding` (crypto package): reads the last byte as the
padding length; strips it only when `1 ≤ p ≤ 16`, `p ≤ len` and the last `p`
bytes all equal `p`; otherwise returns the buffer unchanged. -/
def removePKCS7Padding (data : List Nat) : List Nat :=
  if data = [] then data
  else
    let p := data.getLastD 0
    if p = 0 ∨ 16 < p ∨ data.length < p then data
    else if (data.drop (data.length - p)).all (fun b => b = p) then
      data.take (data.length - p)
    else data

def errKeySize : String := "invalid key size"
def errIVSize : String := "invalid IV size"
def errCTSize : String := "encrypted data size is not a multiple of AES block size"

/-- Embeds `DecryptAESCBC` (crypto package).  `none` for key or IV models a
nil Go slice, substituted by 32 / 16 zero bytes; then the key, IV and
ciphertext sizes are validated, the data is CBC-decrypted with the abstract
block cipher `dec`, and PKCS#7 padding is tolerantly removed. -/
def decryptAESCBC (dec : List Nat → List Nat → List Nat) (encryptedData : List Nat)
    (key iv : Option (List Nat)) : Except String (List Nat) :=
  let key := key.getD (List.replicate 32 0)
  let iv := iv.getD (List.replicate 16 0)
  if ¬(key.length = 16 ∨ key.length = 24 ∨ key.length = 32) then Except.error errKeySize
  else if ¬iv.length = 16 then Except.error errIVSize
  else if ¬encryptedData.length % 16 = 0 then Except.error errCTSize
  else Except.ok (removePKCS7Padding (cbcDecrypt dec key iv encryptedData))

def errKeymapEmpty : String := "keymap data is empty"
def errSliceRange : String := "slice bounds out of range"

/-- Embeds `ExtractKeyFromKeyMap` (crypto package): computes
`keyOffset = keyIndex*32`, reduces it modulo the table length when it
exceeds it, and either takes the direct 32-byte slice or wraps around the
table boundary.  The out-of-range error models the Go slice-bounds panic of
`keymapData[:remaining]` when the wrap would read past the table. -/
def extractKeyFromKeyMap (keymapData : List Nat) (keyIndex : Nat) :
    Except String (List Nat) :=
  if keymapData = [] then Except.error errKeymapEmpty
  else
    let keyOffset := keyIndex * 32
    let keyOffset := if keymapData.length ≤ keyOffset then keyOffset % keymapData.length
      else keyOffset
    if keymapData.length < keyOffset + 32 then
      let firstPart := keymapData.drop keyOffset
      let remaining := 32 - firstPart.length
      if keymapData.length < remaining then Except.error errSliceRange
      else Except.ok (firstPart ++ keymapData.take remaining)
    else Except.ok ((keymapData.drop keyOffset).take 32)

/-! ## Binary structures (structures package, ntpi_structures.go) -/

/-- `RegionHeader`: 8-byte region type and 8-byte region size. -/
structure RegionHeader where
  regionType : Nat
  regionSize : Nat
deriving Repr, DecidableEq

/-- `NTPIHeader`: magic, padding, three version fields and the inline first
region header (48 bytes). -/
structure NTPIHeader where
  magic : List Nat
  padding : Nat
  versionMajor : Nat
  versionMinor : Nat
  versionPatch : Nat
  firstRegion : RegionHeader
deriving Repr, DecidableEq

/-- `RegionBlockHeader`: two region headers plus the real payload size
(40 bytes, at the start of a decrypted metadata region). -/
structure RegionBlockHeader where
  thisHeader : RegionHeader
  nextHeader : RegionHeader
  realSize : Nat
deriving Repr, DecidableEq

/-- `NTEncodeHeader` (112 bytes, precedes every ciphertext block in region 6). -/
structure NTEncodeHeader where
  magic : List Nat
  primaryType : Nat
  compressSubtype : Nat
  encryptSubtype : Nat
  padding : Nat
  processedSize : Nat
  originalSize : Nat
  key : List Nat
  iv : List Nat
  keySize : Nat
  ivSize : Nat
deriving Repr, DecidableEq

def errShortNTPI : String := "data too small for NTPI header"
def errBadNTPIMagic : String := "invalid NTPI magic"
def errShortRegionBlock : String := "data too small for region block header"
def errShortNTEncode : String := "data too small for NTEncode header"
def errBadNTEncodeMagic : String := "invalid NTEncode magic"

/-- Field slice `data[a : a+n]` read as a little-endian integer. -/
def leField (data : List Nat) (a n : Nat) : Nat := leNat ((data.drop a).take n)

/-- Embeds `ParseNTPIHeader`: checks length ≥ 48, reads the little-endian
fields and validates the `"NTPI"` magic. -/
def parseNTPIHeader (data : List Nat) : Except String NTPIHeader :=
  if data.length < 48 then Except.error errShortNTPI
  else
    let h : NTPIHeader :=
      { magic := data.take 4
        padding := leField data 4 4
        versionMajor := leField data 8 8
        versionMinor := leField data 16 8
        versionPatch := leField data 24 8
        firstRegion := { regionType := leField data 32 8, regionSize := leField data 40 8 } }
    if h.magic = ntpiMagic then Except.ok h else Except.error errBadNTPIMagic

/-- Embeds `ParseRegionBlockHeader`: checks length ≥ 40 and reads the two
region headers and the real size (no magic to validate). -/
def parseRegionBlockHeader (data : List Nat) : Except String RegionBlockHeader :=
  if data.length < 40 then Except.error errShortRegionBlock
  else Except.ok
    { thisHeader := { regionType := leField data 0 8, regionSize := leField data 8 8 }
      nextHeader := { regionType := leField data 16 8, regionSize := leField data 24 8 }
      realSize := leField data 32 8 }

/-- Embeds `ParseNTEncodeHeader`: checks length ≥ 112, reads all fields and
validates the `"NTENCODE"` magic. -/
def parseNTEncodeHeader (data : List Nat) : Except String NTEncodeHeader :=
  if data.length < 112 then Except.error errShortNTEncode
  else
    let h : NTEncodeHeader :=
      { magic := data.take 8
        primaryType := leField data 8 4
        compressSubtype := leField data 12 4
        encryptSubtype := leField data 16 4
        padding := leField data 20 4
        processedSize := leField data 24 8
        originalSize := leField data 32 8
        key := (data.drop 40).take 32
        iv := (data.drop 72).take 32
        keySize := leField data 104 4
        ivSize := leField data 108 4 }
    if h.magic = ntencodeMagic then Except.ok h else Except.error errBadNTEncodeMagic

/-- Embeds `NTEncodeHeader.GetIV`: the first 16 bytes of the IV field. -/
def NTEncodeHeader.getIV (h : NTEncodeHeader) : List Nat := h.iv.take 16

def strMetadata : String := "Metadata"
def strPatch : String := "Patch"
def strRawProgram : String := "RawProgram"
def strKeyMap : String := "KeyMap"
def strFileIndex : String := "FileIndex"
def strRegion6 : String := "Region6"
def strUnknown : String := "Unknown"

/-- Embeds `RegionName`: human-readable name of a region type. -/
def regionName (regionType : Nat) : String :=
  if regionType = 1 then strMetadata
  else if regionType = 2 then strPatch
  else if regionType = 3 then strRawProgram
  else if regionType = 4 then strKeyMap
  else if regionType = 5 then strFileIndex
  else if regionType = 6 then strRegion6
  else strUnknown ++ toString regionType

/-! ## Key registry (structures package, aes_keys.go) -/

/-- `AESKeyDict`: version label plus region-keyed hex key and IV tables
(Go maps keyed by `key_1..key_5` / `iv_1..iv_5`, modelled as association
lists keyed by the region number). -/
structure AESKeyDict where
  version : String
  keys : List (Nat × String)
  ivs : List (Nat × String)
deriving Repr, DecidableEq

def v130 : String := "1.3.0"

/-- The compiled-in key set for firmware version 1.3.0 (`AESDict_V1_3_0`). -/
def aesDictV130 : AESKeyDict :=
  { version := v130
    keys :=
      [ (1, "08ed9260dec3807aac3ec00e765186cf4b9c677601ba844f8ec3e8c2fe1e11cb")
      , (2, "7cec0ee7e63a703197afa8e09ce40f9b10a5fded6e5f04cb4ba7a435ed600288")
      , (3, "76fa1a8d6663aae8b964470c384508f7f974d21af2535cd3549c7c51ed68b0e6")
      , (4, "1c37c2a0b579512481e8529532909c7c1be72f9bb5e1a4610328a5e2b67c10f4")
      , (5, "4ae22e3ae6ff0b65d06fa18df4f99ae59e6a90cb92ca03de65b64fc0fac958ce") ]
    ivs :=
      [ (1, "0797205f6b02c0232cd2798795ba588d")
      , (2, "01c5aaae7c4001592ea6a2310364a9a1")
      , (3, "de930fcc2c37009400e21dfa9f7d1363")
      , (4, "ab15d90ce88a83680a4074d5bb96d94c")
      , (5, "eaaa17604ad7dae5773639c217978da5") ] }

/-- `VersionKeyMap`: the version → key-dictionary table (one entry). -/
def versionKeyMap : List (String × AESKeyDict) := [(v130, aesDictV130)]

/-- `DefaultAESDict`: the fallback dictionary for unrecognised versions. -/
def defaultAESDict : AESKeyDict := aesDictV130

def dotStr : String := "."

/-- The `"major.minor.patch"` version string (`fmt.Sprintf`). -/
def versionString (major minor patch : Nat) : String :=
  toString major ++ dotStr ++ toString minor ++ dotStr ++ toString patch

/-- The `"major.minor"` partial version string. -/
def partialVersionString (major minor : Nat) : String :=
  toString major ++ dotStr ++ toString minor

/-- Embeds `GetAESDictForVersion`: exact triple lookup, then a major.minor
string-prefix scan over the table, else the default dictionary.  The result
is wrapped in `Option` to model the Go pointer, `none` standing for nil:
every return path of the source yields a non-nil pointer. -/
def getAESDictForVersion (major minor patch : Nat) : Option AESKeyDict :=
  let version := versionString major minor patch
  match versionKeyMap.find? (fun kv => kv.1 = version) with
  | some kv => some kv.2
  | none =>
    let partialVersion := partialVersionString major minor
    match versionKeyMap.find? (fun kv =>
        partialVersion.length ≤ kv.1.length ∧ kv.1.take partialVersion.length = partialVersion) with
    | some kv => some kv.2
    | none => some defaultAESDict

/-! ## Region keys and block decryption (crypto package) -/

/-- Embeds `AESKeyDict.GetKeyForRegion`: the hex key for a region type, or
the empty string when absent. -/
def getKeyForRegion (d : AESKeyDict) (regionType : Nat) : String :=
  match d.keys.find? (fun kv => kv.1 = regionType) with
  | some kv => kv.2
  | none => ""

/-- Embeds `AESKeyDict.GetIVForRegion`. -/
def getIVForRegion (d : AESKeyDict) (regionType : Nat) : String :=
  match d.ivs.find? (fun kv => kv.1 = regionType) with
  | some kv => kv.2
  | none => ""

def errHexDigit : String := "invalid hex digit"
def errHexLength : String := "odd length hex string"

/-- Value of one hex digit (models `encoding/hex` digit decoding). -/
def hexDigitVal (c : Char) : Except String Nat :=
  if 48 ≤ c.toNat ∧ c.toNat ≤ 57 then Except.ok (c.toNat - 48)
  else if 97 ≤ c.toNat ∧ c.toNat ≤ 102 then Except.ok (c.toNat - 87)
  else if 65 ≤ c.toNat ∧ c.toNat ≤ 70 then Except.ok (c.toNat - 55)
  else Except.error errHexDigit

/-- Hex decoding of a character list, two digits per byte. -/
def hexDecodeChars : List Char → Except String (List Nat)
  | [] => Except.ok []
  | [_] => Except.error errHexLength
  | a :: b :: rest =>
    match hexDigitVal a, hexDigitVal b, hexDecodeChars rest with
    | Except.ok x, Except.ok y, Except.ok bs => Except.ok ((16 * x + y) :: bs)
    | Except.error e, _, _ => Except.error e
    | _, Except.error e, _ => Except.error e
    | _, _, Except.error e => Except.error e

/-- Embeds `hex.DecodeString`. -/
def hexDecode (s : String) : Except String (List Nat) := hexDecodeChars s.toList

def errKeyIVNotFound : String := "key or IV not found for region"

/-- Embeds `GetKeyIVForRegion`: looks the hex key and IV up in the
dictionary and decodes them. -/
def getKeyIVForRegion (regionType : Nat) (keyDict : AESKeyDict) :
    Except String (List Nat × List Nat) :=
  let keyHex := getKeyForRegion keyDict regionType
  let ivHex := getIVForRegion keyDict regionType
  if keyHex = "" ∨ ivHex = "" then Except.error errKeyIVNotFound
  else
    match hexDecode keyHex, hexDecode ivHex with
    | Except.ok key, Except.ok iv => Except.ok (key, iv)
    | Except.error e, _ => Except.error e
    | _, Except.error e => Except.error e

/-- Embeds `DecryptRegionData`: resolves the (key, IV) pair for the region
type and CBC-decrypts the region ciphertext. -/
def decryptRegionData (dec : List Nat → List Nat → List Nat) (encryptedData : List Nat)
    (regionType : Nat) (keyDict : AESKeyDict) : Except String (List Nat) :=
  match getKeyIVForRegion regionType keyDict with
  | Except.error e => Except.error e
  | Except.ok (key, iv) => decryptAESCBC dec encryptedData (some key) (some iv)

def errOffsetExceeds : String := "offset exceeds data size"
def errNoHeaderData : String := "not enough data for NTEncode header"
def errCTExceeds : String := "encrypted data exceeds region6 bounds"

/-- Embeds `DecryptNTEncodeBlock`: parses the 112-byte NTEncode header at
`offset`, takes the following `originalSize` ciphertext bytes, decrypts them
with the given key and the first 16 header IV bytes, and returns the next
block offset with the plaintext. -/
def decryptNTEncodeBlock (dec : List Nat → List Nat → List Nat) (region6Data : List Nat)
    (offset : Nat) (key : List Nat) : Except String (Nat × List Nat) :=
  if region6Data.length ≤ offset then Except.error errOffsetExceeds
  else if region6Data.length < offset + 112 then Except.error errNoHeaderData
  else
    match parseNTEncodeHeader ((region6Data.drop offset).take 112) with
    | Except.error e => Except.error e
    | Except.ok header =>
      let dataOffset := offset + 112
      let encryptedSize := header.originalSize
      if region6Data.length < dataOffset + encryptedSize then Except.error errCTExceeds
      else
        let encryptedData := (region6Data.drop dataOffset).take encryptedSize
        match decryptAESCBC dec encryptedData (some key) (some header.getIV) with
        | Except.error e => Except.error e
        | Except.ok decryptedData => Except.ok (dataOffset + encryptedSize, decryptedData)

/-! ## Decompression and hashing (extractor package, decompress_pure.go).
The raw LZMA2 decoder is the external `ulikunitz/xz` library, passed as the
parameter `lzmaDec`; SHA-256 is the external `crypto/sha256`, passed as the
parameter `sha` producing the lowercase hex digest string. -/

def errShortDecompress : String := "data too small for NTDecompress header"
def errBadDecompressMagic : String := "invalid NTDecompress header magic"

/-- Embeds `decompressLZMA2` (pure Go fallback): validates the 112-byte
NTDecompress header (length and `"NTENCODE"` magic) and feeds the rest of
the buffer to the raw LZMA2 decoder. -/
def decompressLZMA2 (lzmaDec : List Nat → Except String (List Nat))
    (decryptedData : List Nat) : Except String (List Nat) :=
  if decryptedData.length < 112 then Except.error errShortDecompress
  else if ¬decryptedData.take 8 = ntencodeMagic then Except.error errBadDecompressMagic
  else lzmaDec (decryptedData.drop 112)

/-- ASCII lower-casing of one character (the fragment of Go
`strings.EqualFold` relevant to hex digest strings). -/
def toLowerAscii (c : Char) : Char :=
  if 65 ≤ c.toNat ∧ c.toNat ≤ 90 then Char.ofNat (c.toNat + 32) else c

/-- Case-insensitive ASCII string equality (models `strings.EqualFold` on
hex digests). -/
def eqFoldAscii (a b : String) : Bool :=
  a.toList.map toLowerAscii = b.toList.map toLowerAscii

/-- Embeds `verifyHash`: hex-encodes the SHA-256 of the data (the abstract
`sha` already yields the hex string) and compares case-insensitively. -/
def verifyHash (sha : List Nat → String) (data : List Nat) (expectedHash : String) : Bool :=
  eqFoldAscii (sha data) expectedHash

/-! ## File index entries and tasks (parser / extractor packages) -/

/-- `FileInfo`: one entry of FileIndex.xml. -/
structure FileInfo where
  name : String
  fileSha256Hash : String
  partitionSha256Hash : String
  keyIndex : Nat
  isSparse : String
  isEncrypted : String
  isCompressed : String
  partitionLength : Nat
  originalLength : Nat
  offset : Nat
  length : Nat
deriving Repr, DecidableEq

/-- `FileTask`: one extraction task (progress-bar fields omitted). -/
structure FileTask where
  fileInfo : FileInfo
  region6Data : List Nat
  keyMapData : List Nat
  outputDir : String
  useSegmented : Bool
  numSegments : Nat
deriving Repr, DecidableEq

/-- Embeds `calculateOptimalSegments` (segment.go): the segment-count policy
by declared partition length. -/
def calculateOptimalSegments (fileSize : Nat) : Nat :=
  if fileSize < 500 * 1024 * 1024 then 1
  else if fileSize < 1024 * 1024 * 1024 then 4
  else if fileSize < 2 * 1024 * 1024 * 1024 then 8
  else if fileSize < 4 * 1024 * 1024 * 1024 then 12
  else 16

/-- Task construction for one entry, as in the task-building loop of
`ExtractFiles`: every entry becomes a task, segmented exactly when the
segment count exceeds 1. -/
def mkFileTask (region6Data keyMapData : List Nat) (outputDir : String)
    (file : FileInfo) : FileTask :=
  let numSegments := calculateOptimalSegments file.partitionLength
  { fileInfo := file
    region6Data := region6Data
    keyMapData := keyMapData
    outputDir := outputDir
    useSegmented := decide (1 < numSegments)
    numSegments := numSegments }

/-- The task list of `ExtractFiles`: one task per parsed entry, in order. -/
def tasksOf (files : List FileInfo) (region6Data keyMapData : List Nat)
    (outputDir : String) : List FileTask :=
  files.map (mkFileTask region6Data keyMapData outputDir)

/-! ## Output paths.  `filepath.Join(outputDir, name)` joins and then
lexically cleans the path; modelled on component lists: `..` pops the
previous component, `.` and empty components vanish.  This mirrors the Go
standard library's `path/filepath` behaviour for relative results. -/

def emptyStr : String := ""
def dotStr2 : String := "."
def dotdotStr : String := ".."
def slashStr : String := "/"

/-- Split a character list at the separator `/` (char code 47). -/
def splitChars (cs : List Char) : List (List Char) :=
  cs.foldr (fun c acc =>
    if c.toNat = 47 then [] :: acc
    else match acc with
      | [] => [[c]]
      | g :: gs => (c :: g) :: gs) [[]]

/-- Path components of a string: split on the separator, dropping empty and
current-directory components. -/
def splitPathComponents (s : String) : List String :=
  ((splitChars s.toList).map (fun g => String.mk g)).filter
    (fun c => ¬c = emptyStr ∧ ¬c = dotStr2)

/-- Lexical cleaning of a component list (the `filepath.Clean` step of
`filepath.Join`): `..` removes the previous component when one exists. -/
def cleanComponents (cs : List String) : List String :=
  cs.foldl (fun acc c =>
    if c = dotdotStr then
      if acc = [] ∨ acc.getLastD emptyStr = dotdotStr then acc ++ [c] else acc.dropLast
    else acc ++ [c]) []

/-- `filepath.Join(dir, name)` as a cleaned component list. -/
def joinPath (dir name : String) : List String :=
  cleanComponents (splitPathComponents dir ++ splitPathComponents name)

/-! ## Block engine loops (extractor package).  The body shared by the
sequential loop of `processFileSequential` and the segment loop of
`processSegment`: extract the block key from the keymap, decrypt the
NTEncode block, decompress the plaintext. -/

/-- One block iteration at absolute keymap index `idx` and region-6 offset
`off`; returns the next offset and the decompressed chunk. -/
def blockStep (dec : List Nat → List Nat → List Nat)
    (lzmaDec : List Nat → Except String (List Nat))
    (region6 keymap : List Nat) (idx off : Nat) : Except String (Nat × List Nat) :=
  match extractKeyFromKeyMap keymap idx with
  | Except.error e => Except.error e
  | Except.ok key =>
    match decryptNTEncodeBlock dec region6 off key with
    | Except.error e => Except.error e
    | Except.ok (next, decryptedData) =>
      match decompressLZMA2 lzmaDec decryptedData with
      | Except.error e => Except.error e
      | Except.ok chunk => Except.ok (next, chunk)

section BlockEngine

variable (dec : List Nat → List Nat → List Nat)
variable (lzmaDec : List Nat → Except String (List Nat))
variable (region6 keymap : List Nat) (keyIndex : Nat)

/-- The sequential block loop of `processFileSequential` over
`[cur, endOff)`, block index `k`, with explicit fuel (`none` = fuel ran
out); the Go buffer append becomes result concatenation. -/
def seqBlocksRun (endOff : Nat) : Nat → Nat → Nat → Option (Except String (List Nat))
  | 0, cur, _ => if cur < endOff then none else some (Except.ok [])
  | fuel + 1, cur, k =>
    if cur < endOff then
      match blockStep dec lzmaDec region6 keymap (keyIndex + k) cur with
      | Except.error e => some (Except.error e)
      | Except.ok (next, chunk) =>
        match seqBlocksRun endOff fuel next (k + 1) with
        | none => none
        | some (Except.error e) => some (Except.error e)
        | some (Except.ok rest) => some (Except.ok (chunk ++ rest))
    else some (Except.ok [])

end BlockEngine

/-- A segment of a large file (`Segment` in segment.go). -/
structure Segment where
  startOffset : Nat
  endOffset : Nat
  startBlockIndex : Nat
  numBlocks : Nat
deriving Repr, DecidableEq

section SegmentEngine

variable (dec : List Nat → List Nat → List Nat)
variable (lzmaDec : List Nat → Except String (List Nat))
variable (region6 keymap : List Nat) (keyIndex : Nat)

/-- The block loop of `processSegment`: runs while the offset is below the
segment end and fewer than `numBlocks` blocks were handled; block `cnt`
uses keymap index `keyIndex + startBlockIndex + cnt`. -/
def segBlocksRun (seg : Segment) : Nat → Nat → Nat → Option (Except String (List Nat))
  | 0, cur, cnt =>
    if cur < seg.endOffset ∧ cnt < seg.numBlocks then none else some (Except.ok [])
  | fuel + 1, cur, cnt =>
    if cur < seg.endOffset ∧ cnt < seg.numBlocks then
      match blockStep dec lzmaDec region6 keymap (keyIndex + seg.startBlockIndex + cnt) cur with
      | Except.error e => some (Except.error e)
      | Except.ok (next, chunk) =>
        match segBlocksRun seg fuel next (cnt + 1) with
        | none => none
        | some (Except.error e) => some (Except.error e)
        | some (Except.ok rest) => some (Except.ok (chunk ++ rest))
    else some (Except.ok [])

end SegmentEngine

/-- A block boundary recorded by the scan of `splitFileIntoSegments`:
offset, block index, and decompressed size accumulated before the block. -/
structure Boundary where
  offset : Nat
  blockIndex : Nat
  accSize : Nat
deriving Repr, DecidableEq

/-- The boundary scan of `splitFileIntoSegments` (step 1): parse NTEncode
headers without decrypting, recording boundaries, until the entry end, a
header that does not fit, or a parse failure; also returns the total
accumulated decompressed size.  `none` = fuel ran out. -/
def scanRun (region6 : List Nat) (endOff : Nat) :
    Nat → Nat → Nat → Nat → Option (List Boundary × Nat)
  | 0, cur, _, acc => if cur < endOff then none else some ([], acc)
  | fuel + 1, cur, bi, acc =>
    if cur < endOff then
      if region6.length < cur + 112 then some ([], acc)
      else
        match parseNTEncodeHeader ((region6.drop cur).take 112) with
        | Except.error _ => some ([], acc)
        | Except.ok h =>
          match scanRun region6 endOff fuel (cur + 112 + h.originalSize) (bi + 1)
              (acc + h.processedSize) with
          | none => none
          | some (bs, total) => some (⟨cur, bi, acc⟩ :: bs, total)
    else some ([], acc)

/-- State of the partitioning loop of `splitFileIntoSegments` (step 2). -/
structure PartState where
  segs : List Segment
  startIdx : Nat
  csize : Nat
deriving Repr, DecidableEq

/-- One iteration of the partitioning loop: close the current segment when
the accumulated decompressed size reaches the target (while fewer than
`numSegments - 1` segments exist) or at the last block. -/
def partStep (bnds : List Boundary) (offsetEnd numSegments totalBlocks target : Nat)
    (st : PartState) (i : Nat) : PartState :=
  let d : Boundary := ⟨0, 0, 0⟩
  let csize :=
    if st.startIdx < bnds.length then
      (bnds.getD i d).accSize - (bnds.getD st.startIdx d).accSize
    else st.csize
  if (st.segs.length < numSegments - 1 ∧ target ≤ csize) ∨ i = totalBlocks - 1 then
    let endNum : Nat × Nat :=
      if i = totalBlocks - 1 then (offsetEnd, totalBlocks - st.startIdx)
      else
        (if i + 1 < totalBlocks then (bnds.getD (i + 1) d).offset else offsetEnd,
         i - st.startIdx + 1)
    { segs := st.segs ++
        [⟨(bnds.getD st.startIdx d).offset, endNum.1, (bnds.getD st.startIdx d).blockIndex,
          endNum.2⟩]
      startIdx := i + 1
      csize := 0 }
  else { st with csize := csize }

/-- The partitioning loop (step 2 of `splitFileIntoSegments`) over all
block indices. -/
def partitionBoundaries (bnds : List Boundary) (offsetEnd numSegments accSize : Nat) :
    List Segment :=
  ((List.range bnds.length).foldl
    (partStep bnds offsetEnd numSegments bnds.length (accSize / numSegments))
    ⟨[], 0, 0⟩).segs

def errNoValidBlocks : String := "no valid blocks found"
def errFuel : String := "fuel exhausted"

/-- Embeds `splitFileIntoSegments`: boundary scan then partitioning; errors
when no valid block was found.  (In Go a segment count of 0 would be a
division-by-zero panic; all claims assume `numSegments ≥ 1`.) -/
def splitFileIntoSegments (region6 : List Nat) (offset length numSegments : Nat) :
    Except String (List Segment) :=
  let offsetEnd := offset + length
  match scanRun region6 offsetEnd (length + 1) offset 0 0 with
  | none => Except.error errFuel
  | some (boundaries, accumulatedSize) =>
    if boundaries.length = 0 then Except.error errNoValidBlocks
    else Except.ok (partitionBoundaries boundaries offsetEnd numSegments accumulatedSize)

/-- Embeds `processSegment`: the fuel `numBlocks + 1` dominates the loop
since the block counter increases every iteration. -/
def processSegment (dec : List Nat → List Nat → List Nat)
    (lzmaDec : List Nat → Except String (List Nat))
    (region6 keymap : List Nat) (keyIndex : Nat) (seg : Segment) :
    Except String (List Nat) :=
  match segBlocksRun dec lzmaDec region6 keymap keyIndex seg (seg.numBlocks + 1)
      seg.startOffset 0 with
  | none => Except.error errFuel
  | some r => r

/-- The block-processing core of `processFileSequential`: the whole loop
over `[offset, offset + length)` starting at block index 0; fuel
`length + 1` dominates since each block advances the offset. -/
def processBlocksSequential (dec : List Nat → List Nat → List Nat)
    (lzmaDec : List Nat → Except String (List Nat))
    (region6 keymap : List Nat) (keyIndex offset length : Nat) :
    Except String (List Nat) :=
  match seqBlocksRun dec lzmaDec region6 keymap keyIndex (offset + length) (length + 1)
      offset 0 with
  | none => Except.error errFuel
  | some r => r

/-- Per-segment results in segment order (the goroutines of
`processLargeFileSegmented` write into `segmentResults[idx]`, which workers
fill deterministically from the shared read-only inputs; failure of any
segment fails the file). -/
def collectSegments (dec : List Nat → List Nat → List Nat)
    (lzmaDec : List Nat → Except String (List Nat))
    (region6 keymap : List Nat) (keyIndex : Nat) :
    List Segment → Except String (List (List Nat))
  | [] => Except.ok []
  | seg :: rest =>
    match processSegment dec lzmaDec region6 keymap keyIndex seg with
    | Except.error e => Except.error e
    | Except.ok data =>
      match collectSegments dec lzmaDec region6 keymap keyIndex rest with
      | Except.error e => Except.error e
      | Except.ok parts => Except.ok (data :: parts)

/-- The block-processing core of `processLargeFileSegmented`: split into
segments, process each segment, concatenate in segment order. -/
def processBlocksSegmented (dec : List Nat → List Nat → List Nat)
    (lzmaDec : List Nat → Except String (List Nat))
    (region6 keymap : List Nat) (keyIndex offset length numSegments : Nat) :
    Except String (List Nat) :=
  match splitFileIntoSegments region6 offset length numSegments with
  | Except.error e => Except.error e
  | Except.ok segments =>
    match collectSegments dec lzmaDec region6 keymap keyIndex segments with
    | Except.error e => Except.error e
    | Except.ok parts => Except.ok parts.flatten

/-! ## File-level outcomes.  Directory creation and the final write are
modelled as succeeding; `written` records the output path and bytes of the
write that happens, `none` when no file is written. -/

/-- Result of one file task, with the performed write (if any). -/
structure FileOutcome where
  fileName : String
  success : Bool
  message : String
  written : Option (List String × List Nat)
deriving Repr, DecidableEq

def msgOK : String := "OK"
def msgOKSegmented : String := "OK (segmented)"
def msgHashFailed : String := "hash verification failed"

/-- Embeds `processFileSequential` (file level): joins the output path,
creates parent directories (always succeeds in the model; note that no
validation of `name` happens), runs the block loop, verifies the SHA-256
case-insensitively and writes only on success. -/
def processFileSequentialM (dec : List Nat → List Nat → List Nat)
    (lzmaDec : List Nat → Except String (List Nat))
    (sha : List Nat → String) (task : FileTask) : FileOutcome :=
  let file := task.fileInfo
  let outputPath := joinPath task.outputDir file.name
  match processBlocksSequential dec lzmaDec task.region6Data task.keyMapData
      file.keyIndex file.offset file.length with
  | Except.error e => ⟨file.name, false, e, none⟩
  | Except.ok finalData =>
    if verifyHash sha finalData file.fileSha256Hash then
      ⟨file.name, true, msgOK, some (outputPath, finalData)⟩
    else ⟨file.name, false, msgHashFailed, none⟩

/-- Embeds `processLargeFileSegmented` (file level): same shape with the
segmented block core. -/
def processLargeFileSegmentedM (dec : List Nat → List Nat → List Nat)
    (lzmaDec : List Nat → Except String (List Nat))
    (sha : List Nat → String) (task : FileTask) : FileOutcome :=
  let file := task.fileInfo
  let outputPath := joinPath task.outputDir file.name
  match processBlocksSegmented dec lzmaDec task.region6Data task.keyMapData
      file.keyIndex file.offset file.length task.numSegments with
  | Except.error e => ⟨file.name, false, e, none⟩
  | Except.ok finalData =>
    if verifyHash sha finalData file.fileSha256Hash then
      ⟨file.name, true, msgOKSegmented, some (outputPath, finalData)⟩
    else ⟨file.name, false, msgHashFailed, none⟩

/-- Embeds the dispatch of `worker`: segmented path when `UseSegmented`. -/
def runTask (dec : List Nat → List Nat → List Nat)
    (lzmaDec : List Nat → Except String (List Nat))
    (sha : List Nat → String) (task : FileTask) : FileOutcome :=
  if task.useSegmented then processLargeFileSegmentedM dec lzmaDec sha task
  else processFileSequentialM dec lzmaDec sha task

/-! ## Envelope region walk (parser package, ntpi.go).  Decryption of a
metadata region is `crypto.DecryptRegionData`, abstracted as the parameter
`decR regionType regionData`. -/

def r6FileName : String := "region6block.bin"
def binExt : String := ".bin"
def xmlExt : String := ".xml"
def errRegionOOB : String := "region data out of bounds"
def errDecryptedSmall : String := "decrypted data too small for RegionBlockHeader"
def errRealSizeExceeds : String := "real data size exceeds decrypted buffer"

/-- Output file name of a region type (`.bin` only for KeyMap, type 4). -/
def regionFileName (regionType : Nat) : String :=
  regionName regionType ++ (if regionType = 4 then binExt else xmlExt)

/-- Embeds `extractRegion`: one iteration of the walk.  Returns the
written (name, bytes) pair and the continuation — `none` to stop, or the
next (offset, region header).  Type 6 is written raw and stops; other
regions are decrypted, their RegionBlockHeader parsed, the payload
`decrypted[40 .. 40+realSize]` written under the region name, and the walk
continues exactly when `nextHeader.regionSize > 0`. -/
def extractRegionStep (decR : Nat → List Nat → Except String (List Nat))
    (fileData : List Nat) (region : RegionHeader) (offset : Nat) :
    Except String ((String × List Nat) × Option (Nat × RegionHeader)) :=
  if fileData.length < offset + region.regionSize then Except.error errRegionOOB
  else
    let regionData := (fileData.drop offset).take region.regionSize
    if region.regionType = 6 then Except.ok ((r6FileName, regionData), none)
    else
      match decR region.regionType regionData with
      | Except.error e => Except.error e
      | Except.ok decryptedData =>
        if decryptedData.length < 40 then Except.error errDecryptedSmall
        else
          match parseRegionBlockHeader decryptedData with
          | Except.error e => Except.error e
          | Except.ok blockHeader =>
            if decryptedData.length < 40 + blockHeader.realSize then
              Except.error errRealSizeExceeds
            else
              let actualData := (decryptedData.drop 40).take blockHeader.realSize
              let written := (regionFileName region.regionType, actualData)
              if 0 < blockHeader.nextHeader.regionSize then
                Except.ok (written, some (offset + region.regionSize, blockHeader.nextHeader))
              else Except.ok (written, none)

/-- The region walk loop of `ParseNTPIFile`: iterate `extractRegionStep`
from the current (region, offset), collecting written files in order.
`none` = fuel ran out. -/
def regionWalk (decR : Nat → List Nat → Except String (List Nat)) (fileData : List Nat) :
    Nat → RegionHeader → Nat → Option (Except String (List (String × List Nat)))
  | 0, _, _ => none
  | fuel + 1, region, offset =>
    match extractRegionStep decR fileData region offset with
    | Except.error e => some (Except.error e)
    | Except.ok (written, none) => some (Except.ok [written])
    | Except.ok (written, some (nextOff, nextRegion)) =>
      match regionWalk decR fileData fuel nextRegion nextOff with
      | none => none
      | some (Except.error e) => some (Except.error e)
      | some (Except.ok rest) => some (Except.ok (written :: rest))

/-- Embeds the Stage-1 walk setup of `ParseNTPIFile`: parse the file
header at offset 0, then walk regions starting with the header's first
region at offset 48 (= header size). -/
def parseNTPIFileM (decR : Nat → List Nat → Except String (List Nat))
    (fileData : List Nat) (fuel : Nat) : Option (Except String (List (String × List Nat))) :=
  match parseNTPIHeader fileData with
  | Except.error e => some (Except.error e)
  | Except.ok header => regionWalk decR fileData fuel header.firstRegion 48

/-! ## Proof-side models for the segmenter-equivalence analysis.  A
`Chain` records a run of successful block steps: its skeleton lists the
(offset, global block index) of each processed block, `stop` is the final
cursor and the last component the concatenated decompressed output.
`CoverTo` says that a segment list is the contiguous partition of the
boundary indices `[a, b)` into segments of the shape the partitioning loop
emits. -/

section ChainModel

variable (dec : List Nat → List Nat → List Nat)
variable (lzmaDec : List Nat → Except String (List Nat))
variable (region6 keymap : List Nat) (keyIndex : Nat)

/-- Successful block-step chains of the block engine. -/
inductive Chain : Nat → Nat → List (Nat × Nat) → Nat → List Nat → Prop
  | nil (cur k : Nat) : Chain cur k [] cur []
  | cons (cur k next stop : Nat) (chunk D : List Nat) (bs : List (Nat × Nat)) :
      blockStep dec lzmaDec region6 keymap (keyIndex + k) cur = Except.ok (next, chunk) →
      Chain next (k + 1) bs stop D →
      Chain cur k ((cur, k) :: bs) stop (chunk ++ D)

end ChainModel

/-- The canonical segment the partitioning loop emits for the boundary
index range `[a, mid)`. -/
def mkCoverSegment (bnds : List Boundary) (offsetEnd a mid : Nat) : Segment :=
  { startOffset := (bnds.getD a ⟨0, 0, 0⟩).offset
    endOffset := if mid < bnds.length then (bnds.getD mid ⟨0, 0, 0⟩).offset else offsetEnd
    startBlockIndex := (bnds.getD a ⟨0, 0, 0⟩).blockIndex
    numBlocks := mid - a }

/-- Contiguous decomposition of the boundary index range `[a, b)` into
canonical segments. -/
inductive CoverTo (bnds : List Boundary) (offsetEnd : Nat) : Nat → Nat → List Segment → Prop
  | nil (n : Nat) : CoverTo bnds offsetEnd n n []
  | cons (a mid b : Nat) (rest : List Segment) :
      a < mid → mid ≤ b →
      CoverTo bnds offsetEnd mid b rest →
      CoverTo bnds offsetEnd a b (mkCoverSegment bnds offsetEnd a mid :: rest)

/-! ## Concrete demonstration inputs (used by witnesses and
counterexamples).  `demoRegion6` holds one well-formed block: a 112-byte
NTEncode header with `originalSize = 112`, zero IV and zero processed
size, followed by 112 zero ciphertext bytes.  `decConst` is a block
cipher whose every block decryption yields `"NTENCODE"` followed by eight
zero bytes, so the CBC plaintext of the zero ciphertext under the zero IV
is a valid NTDecompress header; `lzmaOk` decompresses anything to the
empty output. -/

def demoRegion6 : List Nat := ntencodeMagic ++ List.replicate 24 0 ++ 112 :: List.replicate 191 0

def demoKeymap : List Nat := List.replicate 32 0

def decConst : List Nat → List Nat → List Nat := fun _ _ => ntencodeMagic ++ List.replicate 8 0

def lzmaOk : List Nat → Except String (List Nat) := fun _ => Except.ok []

def demoPlain : List Nat := (List.replicate 7 (ntencodeMagic ++ List.replicate 8 0)).flatten

/-- A 40-byte decrypted region block whose RegionBlockHeader says: this
region ⟨0,0⟩, next region type 6 of size 5, real payload size 0. -/
def demoRegionBlock : List Nat :=
  List.replicate 16 0 ++ 6 :: List.replicate 7 0 ++ 5 :: List.replicate 7 0 ++ List.replicate 8 0

/-- A hash oracle that reports the digest `"aa"` for every input. -/
def shaAA : List Nat → String := fun _ => "aa"

def outStr : String := "out"
def evilName : String := "../evil"
def evilStr : String := "evil"

/-- An entry over the demonstration block whose recorded digest `"bb"`
cannot match the `shaAA` oracle. -/
def demoFileBad : FileInfo :=
  { name := "abl", fileSha256Hash := "bb", partitionSha256Hash := "", keyIndex := 0
    isSparse := "", isEncrypted := "", isCompressed := ""
    partitionLength := 0, originalLength := 0, offset := 0, length := 224 }

def demoTaskBad : FileTask :=
  { fileInfo := demoFileBad, region6Data := demoRegion6, keyMapData := demoKeymap
    outputDir := outStr, useSegmented := false, numSegments := 1 }

/-- The demonstration entry renamed to the traversal name `"../evil"`,
with the uppercase digest `"AA"` (matched case-insensitively by `shaAA`). -/
def demoFileEvil : FileInfo :=
  { demoFileBad with name := evilName, fileSha256Hash := "AA" }

def demoTaskEvil : FileTask :=
  { demoTaskBad with fileInfo := demoFileEvil }

/-- An entry with `partitionLength = 0` (and an empty region-6 slice)
whose digest matches the `shaAA` oracle on the empty output. -/
def demoZeroFile : FileInfo :=
  { name := "z", fileSha256Hash := "aa", partitionSha256Hash := "", keyIndex := 0
    isSparse := "", isEncrypted := "", isCompressed := ""
    partitionLength := 0, originalLength := 0, offset := 0, length := 0 }

/-! ## Helper lemmas -/

theorem cbcDecryptBlocksAux_length (dec : List Nat → List Nat → List Nat)
    (hdec : ∀ k b, (dec k b).length = b.length) (key : List Nat) :
    ∀ fuel l prev, prev.length = 16 → l.length % 16 = 0 → l.length ≤ fuel →
      (cbcDecryptBlocks dec key prev (toBlocksAux fuel l)).length = l.length := by
  intro fuel
  induction fuel with
  | zero =>
    intro l prev _ _ hle
    have : l = [] := List.eq_nil_of_length_eq_zero (Nat.le_zero.mp hle)
    subst this
    simp [toBlocksAux, cbcDecryptBlocks]
  | succ f ih =>
    intro l prev hprev hmod hle
    cases l with
    | nil => simp [toBlocksAux, cbcDecryptBlocks]
    | cons x xs =>
      simp only [List.length_cons] at hmod hle
      have hlen16 : 16 ≤ xs.length + 1 := by omega
      simp only [toBlocksAux, cbcDecryptBlocks]
      rw [List.length_append, List.length_zipWith, hdec, List.length_take, hprev]
      have hrec := ih ((x :: xs).drop 16) ((x :: xs).take 16)
        (by rw [List.length_take, List.length_cons]; omega)
        (by rw [List.length_drop, List.length_cons]; omega)
        (by rw [List.length_drop, List.length_cons]; omega)
      rw [hrec, List.length_drop]
      simp only [List.length_cons]
      omega

theorem cbcDecrypt_length (dec : List Nat → List Nat → List Nat)
    (hdec : ∀ k b, (dec k b).length = b.length) (key iv ct : List Nat)
    (hiv : iv.length = 16) (hct : ct.length % 16 = 0) :
    (cbcDecrypt dec key iv ct).length = ct.length := by
  exact cbcDecryptBlocksAux_length dec hdec key ct.length ct iv hiv hct (Nat.le_refl _)

/-! ## Claims -/

theorem extractKey_eq_wrap (table : List Nat) (idx : Nat) (h : 32 ≤ table.length) :
    extractKeyFromKeyMap table idx =
      Except.ok (((table ++ table).drop (idx * 32 % table.length)).take 32) := by
  have hne : ¬table = [] := by
    intro he; rw [he] at h; simp at h
  have hpos : 0 < table.length := by
    cases table with
    | nil => exact absurd rfl hne
    | cons a l => simp
  unfold extractKeyFromKeyMap
  rw [if_neg hne]
  have hoff : (if table.length ≤ idx * 32 then idx * 32 % table.length else idx * 32) =
      idx * 32 % table.length := by
    split
    · rfl
    · exact (Nat.mod_eq_of_lt (by omega)).symm
  simp only [hoff]
  set off := idx * 32 % table.length with hoffdef
  have hofflt : off < table.length := Nat.mod_lt _ hpos
  have hdropTT : (table ++ table).drop off = table.drop off ++ table := by
    rw [List.drop_append_eq_append_drop]
    congr 1
    have : off - table.length = 0 := by omega
    rw [this, List.drop_zero]
  rw [hdropTT, List.take_append_eq_append_take, List.length_drop]
  by_cases hcase : table.length < off + 32
  · rw [if_pos hcase]
    have hnopanic : ¬table.length < 32 - (table.length - off) := by omega
    rw [if_neg hnopanic]
    have htake : (table.drop off).take 32 = table.drop off := by
      apply List.take_of_length_le
      rw [List.length_drop]; omega
    rw [htake]
  · rw [if_neg hcase]
    have h0 : 32 - (table.length - off) = 0 := by omega
    rw [h0, List.take_zero, List.append_nil]

/-- C2.  KeyMap wrap rule: for every table holding at least one 32-byte
key and every index, `ExtractKeyFromKeyMap` succeeds and returns exactly
the 32-byte slice `(table ++ table)[offset .. offset+32]` at
`offset = (index*32) mod len(table)`; in particular the result always has
32 bytes. -/
theorem c2_keymap_wrap (table : List Nat) (idx : Nat) (h : 32 ≤ table.length) :
    extractKeyFromKeyMap table idx =
      Except.ok (((table ++ table).drop (idx * 32 % table.length)).take 32) ∧
    ∀ key, extractKeyFromKeyMap table idx = Except.ok key → key.length = 32 := by
  refine ⟨extractKey_eq_wrap table idx h, ?_⟩
  intro key hkey
  rw [extractKey_eq_wrap table idx h] at hkey
  have hk : key = ((table ++ table).drop (idx * 32 % table.length)).take 32 := by
    cases hkey; rfl
  have hofflt : idx * 32 % table.length < table.length := Nat.mod_lt _ (by omega)
  rw [hk, List.length_take, List.length_drop, List.length_append]
  omega

/-- Witness for C2 at a 33-byte table and index 5 (a wrapping case). -/
theorem c2_keymap_wrap_witness :
    32 ≤ (List.range 33).length ∧
    extractKeyFromKeyMap (List.range 33) 5 =
      Except.ok (((List.range 33 ++ List.range 33).drop (5 * 32 % (List.range 33).length)).take 32) :=
  ⟨by decide, (c2_keymap_wrap (List.range 33) 5 (by decide)).1⟩

/-- C3.  PKCS#7 tolerance of `DecryptAESCBC`: with valid key/IV/ciphertext
sizes it returns the CBC plaintext with tolerant unpadding and never
errors; when the last byte `p` of the raw CBC output is in `[1,16]` and the
last `p` bytes all equal `p` those bytes are stripped, and when `p` is
zero, exceeds 16, or the last `p` bytes are not all `p`, the raw output is
returned unchanged. -/
theorem c3_pkcs7_tolerance (dec : List Nat → List Nat → List Nat)
    (ct key iv raw : List Nat)
    (hdec : ∀ k b, (dec k b).length = b.length)
    (hct : ct.length % 16 = 0)
    (hkey : key.length = 16 ∨ key.length = 24 ∨ key.length = 32)
    (hiv : iv.length = 16)
    (hraw : raw = cbcDecrypt dec key iv ct) :
    decryptAESCBC dec ct (some key) (some iv) = Except.ok (removePKCS7Padding raw) ∧
    (∀ p, ¬raw = [] → raw.getLastD 0 = p → 1 ≤ p → p ≤ 16 →
      (raw.drop (raw.length - p)).all (fun b => b = p) = true →
      removePKCS7Padding raw = raw.take (raw.length - p)) ∧
    (∀ p, raw.getLastD 0 = p →
      (p = 0 ∨ 16 < p ∨ (raw.drop (raw.length - p)).all (fun b => b = p) = false) →
      removePKCS7Padding raw = raw) := by
  have hrawlen : raw.length = ct.length := by
    rw [hraw]; exact cbcDecrypt_length dec hdec key iv ct hiv hct
  refine ⟨?_, ?_, ?_⟩
  · unfold decryptAESCBC
    simp only [Option.getD_some]
    rw [if_neg (not_not_intro hkey), if_neg (not_not_intro hiv),
      if_neg (not_not_intro hct), hraw]
  · intro p hne hp h1 h16 hall
    have hlen16 : 16 ≤ raw.length := by
      have : ¬raw.length = 0 := by
        intro h0; exact hne (List.eq_nil_of_length_eq_zero h0)
      omega
    unfold removePKCS7Padding
    rw [if_neg hne]
    simp only [hp]
    rw [if_neg (by omega), if_pos hall]
  · intro p hp hcond
    by_cases hne : raw = []
    · rw [hne]; rfl
    · unfold removePKCS7Padding
      rw [if_neg hne]
      simp only [hp]
      rcases hcond with h0 | h16 | hall
      · rw [if_pos (Or.inl h0)]
      · rw [if_pos (Or.inr (Or.inl h16))]
      · by_cases hbig : p = 0 ∨ 16 < p ∨ raw.length < p
        · rw [if_pos hbig]
        · rw [if_neg hbig, if_neg (by rw [hall]; simp)]

/-- Witness for C3: the identity block cipher, an all-16 single-block
ciphertext and a zero IV; the raw output is fully valid padding. -/
theorem c3_pkcs7_tolerance_witness :
    (List.replicate (16 : Nat) (16 : Nat)).length % 16 = 0 ∧
    ((List.replicate (32 : Nat) (0 : Nat)).length = 16 ∨
      (List.replicate (32 : Nat) (0 : Nat)).length = 24 ∨
      (List.replicate (32 : Nat) (0 : Nat)).length = 32) ∧
    (List.replicate (16 : Nat) (0 : Nat)).length = 16 ∧
    decryptAESCBC (fun _ b => b) (List.replicate 16 16)
        (some (List.replicate 32 0)) (some (List.replicate 16 0)) =
      Except.ok (removePKCS7Padding
        (cbcDecrypt (fun _ b => b) (List.replicate 32 0) (List.replicate 16 0)
          (List.replicate 16 16))) :=
  ⟨by decide, by decide, by decide,
    (c3_pkcs7_tolerance (fun _ b => b) (List.replicate 16 16) (List.replicate 32 0)
      (List.replicate 16 0) _ (fun _ _ => rfl) (by decide) (by decide) (by decide) rfl).1⟩

/-- C10.  Nil-key/IV defaulting: with nil key and IV, `DecryptAESCBC`
substitutes 32 and 16 zero bytes, succeeds on any ciphertext whose length
is a multiple of 16, and agrees with the explicit all-zero key and IV. -/
theorem c10_nil_key_iv_default (dec : List Nat → List Nat → List Nat) (ct : List Nat)
    (hct : ct.length % 16 = 0) :
    decryptAESCBC dec ct none none =
      Except.ok (removePKCS7Padding
        (cbcDecrypt dec (List.replicate 32 0) (List.replicate 16 0) ct)) ∧
    decryptAESCBC dec ct none none =
      decryptAESCBC dec ct (some (List.replicate 32 0)) (some (List.replicate 16 0)) := by
  constructor
  · unfold decryptAESCBC
    rw [if_neg (by simp), if_neg (by simp), if_neg (by simpa using hct)]
    rfl
  · rfl

/-- Witness for C10 at the empty ciphertext and identity block cipher. -/
theorem c10_nil_key_iv_default_witness :
    ([] : List Nat).length % 16 = 0 ∧
    decryptAESCBC (fun _ b => b) [] none none =
      Except.ok (removePKCS7Padding
        (cbcDecrypt (fun _ b => b) (List.replicate 32 0) (List.replicate 16 0) [])) :=
  ⟨by decide, (c10_nil_key_iv_default (fun _ b => b) [] (by decide)).1⟩

/-- C7.  Key registry: the lookup order (exact triple, then major.minor
string prefix, else the default = 1.3.0 set) holds, but the registry never
returns a nil dictionary and carries no `used_default` hint — so the
caller's nil-check warning branch in `ParseNTPIFile` can never fire for an
unknown version such as 9.9.9. -/
theorem c7_registry_no_default_hint :
    getAESDictForVersion 1 3 0 = some aesDictV130 ∧
    getAESDictForVersion 1 3 7 = some aesDictV130 ∧
    getAESDictForVersion 9 9 9 = some defaultAESDict ∧
    ∀ major minor patch, (getAESDictForVersion major minor patch).isSome = true := by
  refine ⟨by decide, by decide, by decide, ?_⟩
  intro major minor patch
  simp only [getAESDictForVersion]
  split
  · simp
  · split <;> simp

theorem decryptNTEncodeBlock_ok_next (dec : List Nat → List Nat → List Nat)
    (region6 : List Nat) (off : Nat) (key : List Nat) (next : Nat) (pt : List Nat)
    (hok : decryptNTEncodeBlock dec region6 off key = Except.ok (next, pt)) :
    ∃ h, parseNTEncodeHeader ((region6.drop off).take 112) = Except.ok h ∧
      next = off + 112 + h.originalSize ∧ off + 112 + h.originalSize ≤ region6.length := by
  unfold decryptNTEncodeBlock at hok
  split at hok
  · exact absurd hok (by simp)
  split at hok
  · exact absurd hok (by simp)
  split at hok
  · exact absurd hok (by simp)
  next header hparse =>
    dsimp only at hok
    split at hok
    · exact absurd hok (by simp)
    next hfit =>
      split at hok
      · exact absurd hok (by simp)
      next d hdec =>
        refine ⟨header, hparse, ?_, by omega⟩
        have := hok
        simp only [Except.ok.injEq, Prod.mk.injEq] at this
        omega

theorem blockStep_ok_parts (dec : List Nat → List Nat → List Nat)
    (lzmaDec : List Nat → Except String (List Nat)) (region6 keymap : List Nat)
    (idx off : Nat) (next : Nat) (chunk : List Nat)
    (hok : blockStep dec lzmaDec region6 keymap idx off = Except.ok (next, chunk)) :
    ∃ key d, extractKeyFromKeyMap keymap idx = Except.ok key ∧
      decryptNTEncodeBlock dec region6 off key = Except.ok (next, d) ∧
      decompressLZMA2 lzmaDec d = Except.ok chunk := by
  unfold blockStep at hok
  split at hok
  · exact absurd hok (by simp)
  next key hkey =>
    split at hok
    · exact absurd hok (by simp)
    next n d hdecr =>
      split at hok
      · exact absurd hok (by simp)
      next c hchunk =>
        simp only [Except.ok.injEq, Prod.mk.injEq] at hok
        exact ⟨key, d, hkey, by rw [hok.1] at hdecr; exact hdecr, by rw [hok.2] at hchunk; exact hchunk⟩

theorem blockStep_ok_advance (dec : List Nat → List Nat → List Nat)
    (lzmaDec : List Nat → Except String (List Nat)) (region6 keymap : List Nat)
    (idx off : Nat) (next : Nat) (chunk : List Nat)
    (hok : blockStep dec lzmaDec region6 keymap idx off = Except.ok (next, chunk)) :
    off + 112 ≤ next ∧ next ≤ region6.length := by
  obtain ⟨key, d, _, hdecr, _⟩ := blockStep_ok_parts dec lzmaDec region6 keymap idx off next chunk hok
  obtain ⟨h, _, hnext, hle⟩ := decryptNTEncodeBlock_ok_next dec region6 off key next d hdecr
  omega

theorem seqBlocksRun_isSome (dec : List Nat → List Nat → List Nat)
    (lzmaDec : List Nat → Except String (List Nat)) (region6 keymap : List Nat)
    (keyIndex endOff : Nat) :
    ∀ fuel cur k, endOff ≤ cur + fuel →
      (seqBlocksRun dec lzmaDec region6 keymap keyIndex endOff fuel cur k).isSome = true := by
  intro fuel
  induction fuel with
  | zero =>
    intro cur k hle
    simp only [seqBlocksRun]
    rw [if_neg (by omega)]
    rfl
  | succ f ih =>
    intro cur k hle
    simp only [seqBlocksRun]
    split
    · next hcur =>
      cases hstep : blockStep dec lzmaDec region6 keymap (keyIndex + k) cur with
      | error e => rfl
      | ok v =>
        obtain ⟨next, chunk⟩ := v
        have hadv := (blockStep_ok_advance dec lzmaDec region6 keymap (keyIndex + k) cur
          next chunk hstep).1
        have hrec := ih next (k + 1) (by omega)
        dsimp only
        cases hr : seqBlocksRun dec lzmaDec region6 keymap keyIndex endOff f next (k + 1) with
        | none => rw [hr] at hrec; exact absurd hrec (by simp)
        | some r => cases r <;> rfl
    · rfl

theorem segBlocksRun_isSome (dec : List Nat → List Nat → List Nat)
    (lzmaDec : List Nat → Except String (List Nat)) (region6 keymap : List Nat)
    (keyIndex : Nat) (seg : Segment) :
    ∀ fuel cur cnt, seg.numBlocks ≤ cnt + fuel →
      (segBlocksRun dec lzmaDec region6 keymap keyIndex seg fuel cur cnt).isSome = true := by
  intro fuel
  induction fuel with
  | zero =>
    intro cur cnt hle
    simp only [segBlocksRun]
    rw [if_neg (by omega)]
    rfl
  | succ f ih =>
    intro cur cnt hle
    simp only [segBlocksRun]
    split
    · next hcond =>
      cases hstep : blockStep dec lzmaDec region6 keymap
          (keyIndex + seg.startBlockIndex + cnt) cur with
      | error e => rfl
      | ok v =>
        obtain ⟨next, chunk⟩ := v
        have hrec := ih next (cnt + 1) (by omega)
        dsimp only
        cases hr : segBlocksRun dec lzmaDec region6 keymap keyIndex seg f next (cnt + 1) with
        | none => rw [hr] at hrec; exact absurd hrec (by simp)
        | some r => cases r <;> rfl
    · rfl

/-- C9.  Block-loop termination: a successful `DecryptNTEncodeBlock` at
`off` returns the next offset `off + 112 + header.originalSize ≥ off + 112`
within the region bounds, and therefore both the sequential loop (with any
fuel covering the remaining byte span) and the per-segment loop (with any
fuel covering the remaining block count) complete rather than running out
of fuel — the cursors strictly advance every iteration. -/
theorem c9_block_loop_termination :
    (∀ (dec : List Nat → List Nat → List Nat) (region6 : List Nat) (off : Nat)
        (key : List Nat) (next : Nat) (pt : List Nat),
      decryptNTEncodeBlock dec region6 off key = Except.ok (next, pt) →
        (∃ h, parseNTEncodeHeader ((region6.drop off).take 112) = Except.ok h ∧
          next = off + 112 + h.originalSize) ∧ off + 112 ≤ next) ∧
    (∀ (dec : List Nat → List Nat → List Nat)
        (lzmaDec : List Nat → Except String (List Nat)) (region6 keymap : List Nat)
        (keyIndex endOff fuel cur k : Nat), endOff ≤ cur + fuel →
      (seqBlocksRun dec lzmaDec region6 keymap keyIndex endOff fuel cur k).isSome = true) ∧
    (∀ (dec : List Nat → List Nat → List Nat)
        (lzmaDec : List Nat → Except String (List Nat)) (region6 keymap : List Nat)
        (keyIndex : Nat) (seg : Segment) (fuel cur cnt : Nat),
      seg.numBlocks ≤ cnt + fuel →
      (segBlocksRun dec lzmaDec region6 keymap keyIndex seg fuel cur cnt).isSome = true) := by
  refine ⟨?_, ?_, ?_⟩
  · intro dec region6 off key next pt hok
    obtain ⟨h, hparse, hnext, hle⟩ := decryptNTEncodeBlock_ok_next dec region6 off key next pt hok
    exact ⟨⟨h, hparse, hnext⟩, by omega⟩
  · intro dec lzmaDec region6 keymap keyIndex endOff fuel cur k hle
    exact seqBlocksRun_isSome dec lzmaDec region6 keymap keyIndex endOff fuel cur k hle
  · intro dec lzmaDec region6 keymap keyIndex seg fuel cur cnt hle
    exact segBlocksRun_isSome dec lzmaDec region6 keymap keyIndex seg fuel cur cnt hle

set_option maxRecDepth 8192 in
/-- Witness for C9 on the one-block demonstration region. -/
theorem c9_block_loop_termination_witness :
    decryptNTEncodeBlock decConst demoRegion6 0 demoKeymap = Except.ok (224, demoPlain) ∧
    ((∃ h, parseNTEncodeHeader ((demoRegion6.drop 0).take 112) = Except.ok h ∧
        224 = 0 + 112 + h.originalSize) ∧ 0 + 112 ≤ 224) ∧
    (224 ≤ 0 + 225 ∧
      (seqBlocksRun decConst lzmaOk demoRegion6 demoKeymap 0 224 225 0 0).isSome = true) ∧
    ((1 ≤ 0 + 2) ∧
      (segBlocksRun decConst lzmaOk demoRegion6 demoKeymap 0 ⟨0, 224, 0, 1⟩ 2 0 0).isSome = true) :=
  ⟨by rfl,
   c9_block_loop_termination.1 decConst demoRegion6 0 demoKeymap 224 demoPlain (by rfl),
   ⟨by decide,
    c9_block_loop_termination.2.1 decConst lzmaOk demoRegion6 demoKeymap 0 224 225 0 0 (by decide)⟩,
   ⟨by decide,
    c9_block_loop_termination.2.2 decConst lzmaOk demoRegion6 demoKeymap 0 ⟨0, 224, 0, 1⟩ 2 0 0
      (by decide)⟩⟩

/-- C4.  Envelope region walk: the Stage-1 walk starts at offset 48 with
the FileHeader's first region; a region of type 6 writes the raw slice
`[offset, offset + regionSize)` as `region6block.bin` and stops; any other
region is decrypted, its payload `decrypted[40 .. 40 + realSize]` is
written under the region type's name, and the walk continues at
`offset + regionSize` with the parsed next header exactly when
`nextHeader.regionSize > 0`, otherwise it stops. -/
theorem c4_region_walk (decR : Nat → List Nat → Except String (List Nat))
    (fileData : List Nat) (region : RegionHeader) (offset fuel : Nat) :
    (∀ h, parseNTPIHeader fileData = Except.ok h →
      parseNTPIFileM decR fileData fuel = regionWalk decR fileData fuel h.firstRegion 48) ∧
    (region.regionType = 6 → offset + region.regionSize ≤ fileData.length →
      regionWalk decR fileData (fuel + 1) region offset =
        some (Except.ok [(r6FileName, (fileData.drop offset).take region.regionSize)])) ∧
    (∀ d bh, ¬region.regionType = 6 → offset + region.regionSize ≤ fileData.length →
      decR region.regionType ((fileData.drop offset).take region.regionSize) = Except.ok d →
      parseRegionBlockHeader d = Except.ok bh → 40 ≤ d.length → 40 + bh.realSize ≤ d.length →
      (bh.nextHeader.regionSize = 0 →
        regionWalk decR fileData (fuel + 1) region offset =
          some (Except.ok [(regionFileName region.regionType, (d.drop 40).take bh.realSize)])) ∧
      (0 < bh.nextHeader.regionSize →
        regionWalk decR fileData (fuel + 1) region offset =
          Option.map (Except.map
            (fun rest => (regionFileName region.regionType, (d.drop 40).take bh.realSize) :: rest))
            (regionWalk decR fileData fuel bh.nextHeader (offset + region.regionSize)))) := by
  refine ⟨?_, ?_, ?_⟩
  · intro h hparse
    unfold parseNTPIFileM
    rw [hparse]
  · intro h6 hbound
    simp only [regionWalk, extractRegionStep]
    rw [if_neg (by omega), if_pos h6]
  · intro d bh h6 hbound hdecR hparse hd40 hreal
    have hwalk : regionWalk decR fileData (fuel + 1) region offset =
        (if 0 < bh.nextHeader.regionSize then
          match regionWalk decR fileData fuel bh.nextHeader (offset + region.regionSize) with
          | none => none
          | some (Except.error e) => some (Except.error e)
          | some (Except.ok rest) =>
            some (Except.ok ((regionFileName region.regionType,
              (d.drop 40).take bh.realSize) :: rest))
        else some (Except.ok [(regionFileName region.regionType,
          (d.drop 40).take bh.realSize)])) := by
      simp only [regionWalk, extractRegionStep]
      rw [if_neg (by omega), if_neg h6, hdecR]
      dsimp only
      rw [if_neg (by omega), hparse]
      dsimp only
      rw [if_neg (by omega)]
      by_cases hnx : 0 < bh.nextHeader.regionSize
      · rw [if_pos hnx, if_pos hnx]
      · rw [if_neg hnx, if_neg hnx]
    constructor
    · intro hz
      rw [hwalk, if_neg (by omega)]
    · intro hpos
      rw [hwalk, if_pos hpos]
      cases regionWalk decR fileData fuel bh.nextHeader (offset + region.regionSize) with
      | none => rfl
      | some r => cases r <;> rfl

set_option maxRecDepth 4096 in
/-- Witness for C4: the walk start, a type-6 stop, a metadata stop
(next size 0), and a continuation (next size 5) at concrete inputs. -/
theorem c4_region_walk_witness :
    (parseNTPIHeader (ntpiMagic ++ List.replicate 44 0) = Except.ok
        { magic := ntpiMagic, padding := 0, versionMajor := 0, versionMinor := 0,
          versionPatch := 0, firstRegion := ⟨0, 0⟩ } ∧
      parseNTPIFileM (fun _ _ => Except.ok []) (ntpiMagic ++ List.replicate 44 0) 3 =
        regionWalk (fun _ _ => Except.ok []) (ntpiMagic ++ List.replicate 44 0) 3 ⟨0, 0⟩ 48) ∧
    (0 + 2 ≤ ([1, 2] : List Nat).length ∧
      regionWalk (fun _ _ => Except.ok []) [1, 2] 1 ⟨6, 2⟩ 0 =
        some (Except.ok [(r6FileName, [1, 2])])) ∧
    (regionWalk (fun _ _ => Except.ok (List.replicate 40 0)) [0] 1 ⟨2, 1⟩ 0 =
      some (Except.ok [(regionFileName 2, [])])) ∧
    (regionWalk (fun _ _ => Except.ok demoRegionBlock) (List.replicate 63 0) 2 ⟨1, 10⟩ 48 =
      Option.map (Except.map (fun rest => (regionFileName 1, ([] : List Nat)) :: rest))
        (regionWalk (fun _ _ => Except.ok demoRegionBlock) (List.replicate 63 0) 1 ⟨6, 5⟩ 58)) :=
  ⟨⟨by rfl,
    (c4_region_walk (fun _ _ => Except.ok []) (ntpiMagic ++ List.replicate 44 0) ⟨0, 0⟩ 0 3).1
      { magic := ntpiMagic, padding := 0, versionMajor := 0, versionMinor := 0,
        versionPatch := 0, firstRegion := ⟨0, 0⟩ } (by rfl)⟩,
   ⟨by decide,
    (c4_region_walk (fun _ _ => Except.ok []) [1, 2] ⟨6, 2⟩ 0 0).2.1 (by rfl) (by decide)⟩,
   ((c4_region_walk (fun _ _ => Except.ok (List.replicate 40 0)) [0] ⟨2, 1⟩ 0 0).2.2
      (List.replicate 40 0) ⟨⟨0, 0⟩, ⟨0, 0⟩, 0⟩ (by decide) (by decide) (by rfl) (by rfl)
      (by decide) (by decide)).1 (by rfl),
   ((c4_region_walk (fun _ _ => Except.ok demoRegionBlock) (List.replicate 63 0) ⟨1, 10⟩ 48 1).2.2
      demoRegionBlock ⟨⟨0, 0⟩, ⟨6, 5⟩, 0⟩ (by decide) (by decide) (by rfl) (by rfl)
      (by decide) (by decide)).2 (by decide)⟩

/-- C5.  Integrity atomicity: the digest of the concatenated decompressed
blocks is compared case-insensitively against the entry's recorded hash,
and when it does not match, the task fails with `hash verification failed`
and no output file is written — on the sequential and on the segmented
path alike. -/
theorem c5_integrity_atomicity (dec : List Nat → List Nat → List Nat)
    (lzmaDec : List Nat → Except String (List Nat)) (sha : List Nat → String)
    (task : FileTask) (D : List Nat) :
    (verifyHash sha D task.fileInfo.fileSha256Hash =
      eqFoldAscii (sha D) task.fileInfo.fileSha256Hash) ∧
    (processBlocksSequential dec lzmaDec task.region6Data task.keyMapData
        task.fileInfo.keyIndex task.fileInfo.offset task.fileInfo.length = Except.ok D →
      verifyHash sha D task.fileInfo.fileSha256Hash = false →
      processFileSequentialM dec lzmaDec sha task =
        ⟨task.fileInfo.name, false, msgHashFailed, none⟩) ∧
    (processBlocksSegmented dec lzmaDec task.region6Data task.keyMapData
        task.fileInfo.keyIndex task.fileInfo.offset task.fileInfo.length
        task.numSegments = Except.ok D →
      verifyHash sha D task.fileInfo.fileSha256Hash = false →
      processLargeFileSegmentedM dec lzmaDec sha task =
        ⟨task.fileInfo.name, false, msgHashFailed, none⟩) := by
  refine ⟨rfl, ?_, ?_⟩
  · intro hok hv
    unfold processFileSequentialM
    dsimp only
    rw [hok]
    dsimp only
    rw [hv]
    rfl
  · intro hok hv
    unfold processLargeFileSegmentedM
    dsimp only
    rw [hok]
    dsimp only
    rw [hv]
    rfl

set_option maxRecDepth 8192 in
/-- Witness for C5 on the one-block demonstration entry whose recorded
digest `"bb"` does not match the oracle digest `"aa"`: both paths fail and
write nothing. -/
theorem c5_integrity_atomicity_witness :
    processBlocksSequential decConst lzmaOk demoTaskBad.region6Data demoTaskBad.keyMapData
        demoTaskBad.fileInfo.keyIndex demoTaskBad.fileInfo.offset
        demoTaskBad.fileInfo.length = Except.ok [] ∧
    verifyHash shaAA [] demoTaskBad.fileInfo.fileSha256Hash = false ∧
    processFileSequentialM decConst lzmaOk shaAA demoTaskBad =
      ⟨demoTaskBad.fileInfo.name, false, msgHashFailed, none⟩ ∧
    processBlocksSegmented decConst lzmaOk demoTaskBad.region6Data demoTaskBad.keyMapData
        demoTaskBad.fileInfo.keyIndex demoTaskBad.fileInfo.offset demoTaskBad.fileInfo.length
        demoTaskBad.numSegments = Except.ok [] ∧
    processLargeFileSegmentedM decConst lzmaOk shaAA demoTaskBad =
      ⟨demoTaskBad.fileInfo.name, false, msgHashFailed, none⟩ :=
  ⟨by rfl, by rfl,
   (c5_integrity_atomicity decConst lzmaOk shaAA demoTaskBad []).2.1 (by rfl) (by rfl),
   by rfl,
   (c5_integrity_atomicity decConst lzmaOk shaAA demoTaskBad []).2.2 (by rfl) (by rfl)⟩

set_option maxRecDepth 8192 in
/-- C6 (code bug).  Output path safety: the extractor performs no check on
the entry name.  For the name `"../evil"` it joins and lexically cleans
`out/../evil` to `evil`, creates the directories, processes the entry and
writes the output there — outside the `out` output directory (every path
under the output directory starts with the `out` component).  The claim's
required rejection of `..` components does not exist in the code. -/
theorem c6_path_traversal_not_rejected :
    joinPath outStr evilName = [evilStr] ∧
    processFileSequentialM decConst lzmaOk shaAA demoTaskEvil =
      ⟨evilName, true, msgOK, some ([evilStr], [])⟩ ∧
    ∀ rest, ¬([evilStr] = outStr :: rest) := by
  refine ⟨by rfl, by rfl, ?_⟩
  intro rest h
  have : evilStr = outStr := by
    injection h with h1 _
  exact absurd this (by decide)

/-- C8 (amended).  Zero-length partitions are not rejected: an entry with
`partitionLength = 0` gets segment count 1, is dispatched to the ordinary
sequential path, and runs the block loop, hash check and write like any
other entry — no malformed-entry rejection exists; task construction keeps
every entry. -/
theorem c8_zero_partition_processed (dec : List Nat → List Nat → List Nat)
    (lzmaDec : List Nat → Except String (List Nat)) (sha : List Nat → String)
    (region6 keymap : List Nat) (outputDir : String) (f : FileInfo)
    (files : List FileInfo) (h0 : f.partitionLength = 0) :
    calculateOptimalSegments f.partitionLength = 1 ∧
    (mkFileTask region6 keymap outputDir f).useSegmented = false ∧
    runTask dec lzmaDec sha (mkFileTask region6 keymap outputDir f) =
      processFileSequentialM dec lzmaDec sha (mkFileTask region6 keymap outputDir f) ∧
    tasksOf (f :: files) region6 keymap outputDir =
      mkFileTask region6 keymap outputDir f :: tasksOf files region6 keymap outputDir := by
  have hseg : calculateOptimalSegments f.partitionLength = 1 := by
    rw [h0]; rfl
  have huse : (mkFileTask region6 keymap outputDir f).useSegmented = false := by
    unfold mkFileTask
    dsimp only
    rw [hseg]
    rfl
  refine ⟨hseg, huse, ?_, rfl⟩
  unfold runTask
  rw [huse]
  rfl

/-- Witness for C8 (amended) at the concrete zero-length entry. -/
theorem c8_zero_partition_processed_witness :
    demoZeroFile.partitionLength = 0 ∧
    calculateOptimalSegments demoZeroFile.partitionLength = 1 ∧
    (mkFileTask [] [] outStr demoZeroFile).useSegmented = false ∧
    runTask decConst lzmaOk shaAA (mkFileTask [] [] outStr demoZeroFile) =
      processFileSequentialM decConst lzmaOk shaAA (mkFileTask [] [] outStr demoZeroFile) :=
  ⟨by rfl,
   (c8_zero_partition_processed decConst lzmaOk shaAA [] [] outStr demoZeroFile [] (by rfl)).1,
   (c8_zero_partition_processed decConst lzmaOk shaAA [] [] outStr demoZeroFile [] (by rfl)).2.1,
   (c8_zero_partition_processed decConst lzmaOk shaAA [] [] outStr demoZeroFile [] (by rfl)).2.2.1⟩

/-- Counterexample for C8 as stated: the zero-partition entry is not
rejected as malformed — it is processed end to end and its (empty) output
file is even written successfully. -/
theorem c8_zero_partition_counterexample :
    demoZeroFile.partitionLength = 0 ∧
    tasksOf [demoZeroFile] [] [] outStr = [mkFileTask [] [] outStr demoZeroFile] ∧
    runTask decConst lzmaOk shaAA (mkFileTask [] [] outStr demoZeroFile) =
      ⟨demoZeroFile.name, true, msgOK, some ([outStr, demoZeroFile.name], [])⟩ := by
  refine ⟨rfl, rfl, ?_⟩
  rfl

section ChainLemmas

variable (dec : List Nat → List Nat → List Nat)
variable (lzmaDec : List Nat → Except String (List Nat))
variable (region6 keymap : List Nat) (keyIndex : Nat)

theorem chain_nil_inv (cur k stop : Nat) (D : List Nat)
    (h : Chain dec lzmaDec region6 keymap keyIndex cur k [] stop D) :
    stop = cur ∧ D = [] := by
  cases h
  exact ⟨rfl, rfl⟩

theorem chain_cons_inv (cur k stop o j : Nat) (bs : List (Nat × Nat)) (D : List Nat)
    (h : Chain dec lzmaDec region6 keymap keyIndex cur k ((o, j) :: bs) stop D) :
    o = cur ∧ j = k ∧ ∃ next chunk D',
      blockStep dec lzmaDec region6 keymap (keyIndex + k) cur = Except.ok (next, chunk) ∧
      Chain dec lzmaDec region6 keymap keyIndex next (k + 1) bs stop D' ∧ D = chunk ++ D' := by
  cases h with
  | cons _ _ next _ chunk D' _ hstep hrest =>
    exact ⟨rfl, rfl, next, chunk, D', hstep, hrest, rfl⟩

theorem chain_offsets (cur k stop : Nat) (s : List (Nat × Nat)) (D : List Nat)
    (h : Chain dec lzmaDec region6 keymap keyIndex cur k s stop D) :
    cur ≤ stop ∧ ∀ p ∈ s, cur ≤ p.1 ∧ p.1 + 112 ≤ stop := by
  induction h with
  | nil => exact ⟨Nat.le_refl _, by simp⟩
  | cons cur k next stop chunk D bs hstep hrest ih =>
    have hadv := blockStep_ok_advance dec lzmaDec region6 keymap (keyIndex + k) cur next chunk hstep
    refine ⟨by omega, ?_⟩
    intro p hp
    rcases List.mem_cons.mp hp with hph | hpt
    · subst hph
      exact ⟨Nat.le_refl _, by omega⟩
    · have := ih.2 p hpt
      omega

theorem chain_length_le (E : Nat) (s : List (Nat × Nat)) :
    ∀ cur k stop D, Chain dec lzmaDec region6 keymap keyIndex cur k s stop D →
      (∀ p ∈ s, p.1 < E) → s.length ≤ E - cur := by
  induction s with
  | nil => intro cur k stop D h hmem; simp
  | cons p bs ih =>
    intro cur k stop D h hmem
    obtain ⟨o, j⟩ := p
    obtain ⟨ho, hj, next, chunk, D', hstep, hrest, hD⟩ :=
      chain_cons_inv dec lzmaDec region6 keymap keyIndex cur k stop o j bs D h
    have hadv := blockStep_ok_advance dec lzmaDec region6 keymap (keyIndex + k) cur next chunk hstep
    have hrec := ih next (k + 1) stop D' hrest (fun q hq => hmem q (List.mem_cons_of_mem _ hq))
    have hcur : cur < E := by
      have := hmem (o, j) (List.mem_cons_self _ _)
      simpa [ho] using this
    simp only [List.length_cons]
    omega

theorem seqRun_toChain (endOff : Nat) :
    ∀ fuel cur k D,
      seqBlocksRun dec lzmaDec region6 keymap keyIndex endOff fuel cur k =
        some (Except.ok D) →
      ∃ skel stop, Chain dec lzmaDec region6 keymap keyIndex cur k skel stop D ∧
        (∀ p ∈ skel, p.1 < endOff) ∧ ¬stop < endOff := by
  intro fuel
  induction fuel with
  | zero =>
    intro cur k D h
    simp only [seqBlocksRun] at h
    split at h
    · exact absurd h (by simp)
    · next hcur =>
      have hD : D = [] := by
        have := h
        simp only [Option.some.injEq, Except.ok.injEq] at this
        exact this.symm
      subst hD
      exact ⟨[], cur, Chain.nil cur k, by simp, hcur⟩
  | succ f ih =>
    intro cur k D h
    simp only [seqBlocksRun] at h
    split at h
    · next hcur =>
      cases hstep : blockStep dec lzmaDec region6 keymap (keyIndex + k) cur with
      | error e => rw [hstep] at h; exact absurd h (by simp)
      | ok v =>
        obtain ⟨next, chunk⟩ := v
        rw [hstep] at h
        dsimp only at h
        cases hr : seqBlocksRun dec lzmaDec region6 keymap keyIndex endOff f next (k + 1) with
        | none => rw [hr] at h; exact absurd h (by simp)
        | some r =>
          rw [hr] at h
          cases r with
          | error e => exact absurd h (by simp)
          | ok rest =>
            have hD : D = chunk ++ rest := by
              have := h
              simp only [Option.some.injEq, Except.ok.injEq] at this
              exact this.symm
            subst hD
            obtain ⟨skel, stop, hchain, hmem, hstop⟩ := ih next (k + 1) rest hr
            refine ⟨(cur, k) :: skel, stop,
              Chain.cons cur k next stop chunk rest skel hstep hchain, ?_, hstop⟩
            intro p hp
            rcases List.mem_cons.mp hp with hph | hpt
            · subst hph; exact hcur
            · exact hmem p hpt
    · next hcur =>
      have hD : D = [] := by
        have := h
        simp only [Option.some.injEq, Except.ok.injEq] at this
        exact this.symm
      subst hD
      exact ⟨[], cur, Chain.nil cur k, by simp, hcur⟩

theorem chain_append (s₁ : List (Nat × Nat)) :
    ∀ s₂ cur k stop D,
      Chain dec lzmaDec region6 keymap keyIndex cur k (s₁ ++ s₂) stop D →
      ∃ mid D₁ D₂, D = D₁ ++ D₂ ∧
        Chain dec lzmaDec region6 keymap keyIndex cur k s₁ mid D₁ ∧
        Chain dec lzmaDec region6 keymap keyIndex mid (k + s₁.length) s₂ stop D₂ ∧
        (∀ q qs, s₂ = q :: qs → mid = q.1) := by
  induction s₁ with
  | nil =>
    intro s₂ cur k stop D h
    refine ⟨cur, [], D, rfl, Chain.nil cur k, by simpa using h, ?_⟩
    intro q qs hq
    subst hq
    obtain ⟨o, j⟩ := q
    have := chain_cons_inv dec lzmaDec region6 keymap keyIndex cur k stop o j qs D
      (by simpa using h)
    exact this.1.symm
  | cons p bs ih =>
    intro s₂ cur k stop D h
    obtain ⟨o, j⟩ := p
    obtain ⟨ho, hj, next, chunk, D', hstep, hrest, hD⟩ :=
      chain_cons_inv dec lzmaDec region6 keymap keyIndex cur k stop o j (bs ++ s₂) D
      (by simpa using h)
    obtain ⟨mid, D₁, D₂, hS, hc₁, hc₂, hhead⟩ := ih s₂ next (k + 1) stop D' hrest
    refine ⟨mid, chunk ++ D₁, D₂, by rw [hD, hS, List.append_assoc], ?_, ?_, hhead⟩
    · rw [ho, hj]
      exact Chain.cons cur k next mid chunk D₁ bs hstep hc₁
    · have harith : k + 1 + bs.length = k + (bs.length + 1) := by omega
      rw [harith] at hc₂
      simpa using hc₂

theorem scanRun_of_chain (endOff : Nat) (s : List (Nat × Nat)) :
    ∀ cur k stop D,
      Chain dec lzmaDec region6 keymap keyIndex cur k s stop D →
      (∀ p ∈ s, p.1 < endOff) → ¬stop < endOff →
      ∀ fuel acc, s.length + 1 ≤ fuel →
        ∃ bnds total, scanRun region6 endOff fuel cur k acc = some (bnds, total) ∧
          bnds.map (fun b => (b.offset, b.blockIndex)) = s := by
  induction s with
  | nil =>
    intro cur k stop D h hmem hstop fuel acc hfuel
    obtain ⟨hsc, _⟩ := chain_nil_inv dec lzmaDec region6 keymap keyIndex cur k stop D h
    subst hsc
    cases fuel with
    | zero => omega
    | succ f =>
      refine ⟨[], acc, ?_, rfl⟩
      simp only [scanRun]
      rw [if_neg hstop]
  | cons p bs ih =>
    intro cur k stop D h hmem hstop fuel acc hfuel
    obtain ⟨o, j⟩ := p
    obtain ⟨ho, hj, next, chunk, D', hstep, hrest, hD⟩ :=
      chain_cons_inv dec lzmaDec region6 keymap keyIndex cur k stop o j bs D h
    obtain ⟨key, d, hkey, hdecr, hdecomp⟩ :=
      blockStep_ok_parts dec lzmaDec region6 keymap (keyIndex + k) cur next chunk hstep
    obtain ⟨hdr, hparse, hnext, hbound⟩ :=
      decryptNTEncodeBlock_ok_next dec region6 cur key next d hdecr
    have hcur : cur < endOff := by
      have := hmem (o, j) (List.mem_cons_self _ _)
      rw [ho] at this
      exact this
    cases fuel with
    | zero => simp only [List.length_cons] at hfuel; omega
    | succ f =>
      simp only [scanRun]
      rw [if_pos hcur, if_neg (by omega)]
      rw [hparse]
      dsimp only
      have hnext' : cur + 112 + hdr.originalSize = next := hnext.symm
      rw [hnext']
      obtain ⟨bnds, total, hscan, hmap⟩ := ih next (k + 1) stop D' hrest
        (fun q hq => hmem q (List.mem_cons_of_mem _ hq)) hstop f (acc + hdr.processedSize)
        (by simp only [List.length_cons] at hfuel; omega)
      rw [hscan]
      refine ⟨⟨cur, k, acc⟩ :: bnds, total, rfl, ?_⟩
      simp only [List.map_cons, hmap, ho, hj]

theorem segRun_of_chain (seg : Segment) (s : List (Nat × Nat)) :
    ∀ j cur mid D,
      Chain dec lzmaDec region6 keymap keyIndex cur (seg.startBlockIndex + j) s mid D →
      j + s.length = seg.numBlocks →
      (∀ p ∈ s, p.1 < seg.endOffset) →
      ∀ fuel, s.length + 1 ≤ fuel →
        segBlocksRun dec lzmaDec region6 keymap keyIndex seg fuel cur j =
          some (Except.ok D) := by
  induction s with
  | nil =>
    intro j cur mid D h hnum hmem fuel hfuel
    obtain ⟨_, hDnil⟩ := chain_nil_inv dec lzmaDec region6 keymap keyIndex cur
      (seg.startBlockIndex + j) mid D h
    subst hDnil
    cases fuel with
    | zero => omega
    | succ f =>
      simp only [segBlocksRun]
      rw [if_neg (fun hc => absurd hc.2 (by simp only [List.length] at hnum; omega))]
  | cons p bs ih =>
    intro j cur mid D h hnum hmem fuel hfuel
    obtain ⟨o, jj⟩ := p
    obtain ⟨ho, hjj, next, chunk, D', hstep, hrest, hD⟩ :=
      chain_cons_inv dec lzmaDec region6 keymap keyIndex cur (seg.startBlockIndex + j) mid o jj
        bs D h
    have hcur : cur < seg.endOffset := by
      have := hmem (o, jj) (List.mem_cons_self _ _)
      rw [ho] at this
      exact this
    simp only [List.length_cons] at hnum hfuel
    cases fuel with
    | zero => omega
    | succ f =>
      simp only [segBlocksRun]
      rw [if_pos ⟨hcur, by omega⟩]
      have hidx : keyIndex + seg.startBlockIndex + j = keyIndex + (seg.startBlockIndex + j) := by
        omega
      rw [hidx, hstep]
      dsimp only
      have hidx2 : seg.startBlockIndex + j + 1 = seg.startBlockIndex + (j + 1) := by omega
      rw [hidx2] at hrest
      have hrec := ih (j + 1) next mid D' hrest (by omega)
        (fun q hq => hmem q (List.mem_cons_of_mem _ hq)) f (by omega)
      rw [hrec]
      dsimp only
      rw [hD]

end ChainLemmas

theorem coverTo_le (bnds : List Boundary) (E : Nat) {a b : Nat} {s : List Segment}
    (h : CoverTo bnds E a b s) : a ≤ b := by
  cases h with
  | nil n => exact Nat.le_refl _
  | cons a mid b rest hamid hmidb _ => omega

theorem coverTo_append (bnds : List Boundary) (E : Nat) {a b : Nat} {s1 : List Segment}
    (h1 : CoverTo bnds E a b s1) :
    ∀ {c : Nat} {s2 : List Segment}, CoverTo bnds E b c s2 →
      CoverTo bnds E a c (s1 ++ s2) := by
  induction h1 with
  | nil n => intro c s2 h2; simpa using h2
  | cons a mid b rest hamid hmidb hrest ih =>
    intro c s2 h2
    exact CoverTo.cons a mid c (rest ++ s2) hamid
      (Nat.le_trans hmidb (coverTo_le bnds E h2)) (ih h2)

theorem partClose_cover (bnds : List Boundary) (offsetEnd : Nat) (st : PartState) (i : Nat)
    (hB : 1 ≤ bnds.length) (hstart : st.startIdx ≤ i)
    (hcov : CoverTo bnds offsetEnd 0 st.startIdx st.segs) :
    CoverTo bnds offsetEnd 0 (i + 1) (st.segs ++
      [⟨(bnds.getD st.startIdx ⟨0, 0, 0⟩).offset,
        (if i = bnds.length - 1 then (offsetEnd, bnds.length - st.startIdx)
          else (if i + 1 < bnds.length then (bnds.getD (i + 1) ⟨0, 0, 0⟩).offset else offsetEnd,
            i - st.startIdx + 1)).1,
        (bnds.getD st.startIdx ⟨0, 0, 0⟩).blockIndex,
        (if i = bnds.length - 1 then (offsetEnd, bnds.length - st.startIdx)
          else (if i + 1 < bnds.length then (bnds.getD (i + 1) ⟨0, 0, 0⟩).offset else offsetEnd,
            i - st.startIdx + 1)).2⟩]) := by
  apply coverTo_append bnds offsetEnd hcov
  have hseg : (⟨(bnds.getD st.startIdx ⟨0, 0, 0⟩).offset,
        (if i = bnds.length - 1 then (offsetEnd, bnds.length - st.startIdx)
          else (if i + 1 < bnds.length then (bnds.getD (i + 1) ⟨0, 0, 0⟩).offset else offsetEnd,
            i - st.startIdx + 1)).1,
        (bnds.getD st.startIdx ⟨0, 0, 0⟩).blockIndex,
        (if i = bnds.length - 1 then (offsetEnd, bnds.length - st.startIdx)
          else (if i + 1 < bnds.length then (bnds.getD (i + 1) ⟨0, 0, 0⟩).offset else offsetEnd,
            i - st.startIdx + 1)).2⟩ : Segment) =
      mkCoverSegment bnds offsetEnd st.startIdx (i + 1) := by
    unfold mkCoverSegment
    by_cases hlast : i = bnds.length - 1
    · rw [if_pos hlast]
      dsimp only
      rw [if_neg (by omega)]
      simp only [Segment.mk.injEq]
      refine ⟨trivial, trivial, trivial, by omega⟩
    · rw [if_neg hlast]
      dsimp only
      simp only [Segment.mk.injEq]
      refine ⟨trivial, trivial, trivial, by omega⟩
  rw [hseg]
  exact CoverTo.cons st.startIdx (i + 1) (i + 1) [] (by omega) (Nat.le_refl _)
    (CoverTo.nil (i + 1))

theorem partStep_inv (bnds : List Boundary) (offsetEnd numSegments target : Nat)
    (st : PartState) (i : Nat) (hB : 1 ≤ bnds.length)
    (hstart : st.startIdx ≤ i)
    (hcov : CoverTo bnds offsetEnd 0 st.startIdx st.segs) :
    (partStep bnds offsetEnd numSegments bnds.length target st i).startIdx ≤ i + 1 ∧
    CoverTo bnds offsetEnd 0
      (partStep bnds offsetEnd numSegments bnds.length target st i).startIdx
      (partStep bnds offsetEnd numSegments bnds.length target st i).segs ∧
    (i = bnds.length - 1 →
      (partStep bnds offsetEnd numSegments bnds.length target st i).startIdx = i + 1) := by
  unfold partStep
  dsimp only
  split
  · split
    · refine ⟨Nat.le_refl _, ?_, fun _ => rfl⟩
      exact partClose_cover bnds offsetEnd st i hB hstart hcov
    · next hnoclose =>
      refine ⟨Nat.le_succ_of_le hstart, hcov, ?_⟩
      intro hlast
      exact absurd (Or.inr hlast) hnoclose
  · split
    · refine ⟨Nat.le_refl _, ?_, fun _ => rfl⟩
      exact partClose_cover bnds offsetEnd st i hB hstart hcov
    · next hnoclose =>
      refine ⟨Nat.le_succ_of_le hstart, hcov, ?_⟩
      intro hlast
      exact absurd (Or.inr hlast) hnoclose

theorem partFold_inv (bnds : List Boundary) (offsetEnd numSegments target : Nat)
    (hB : 1 ≤ bnds.length) :
    ∀ n, n ≤ bnds.length →
      ((List.range n).foldl (partStep bnds offsetEnd numSegments bnds.length target)
        ⟨[], 0, 0⟩).startIdx ≤ n ∧
      CoverTo bnds offsetEnd 0
        ((List.range n).foldl (partStep bnds offsetEnd numSegments bnds.length target)
          ⟨[], 0, 0⟩).startIdx
        ((List.range n).foldl (partStep bnds offsetEnd numSegments bnds.length target)
          ⟨[], 0, 0⟩).segs := by
  intro n
  induction n with
  | zero => intro _; exact ⟨Nat.le_refl _, CoverTo.nil 0⟩
  | succ m ih =>
    intro hle
    have hm := ih (by omega)
    rw [List.range_succ, List.foldl_append]
    dsimp only [List.foldl]
    have := partStep_inv bnds offsetEnd numSegments target
      ((List.range m).foldl (partStep bnds offsetEnd numSegments bnds.length target) ⟨[], 0, 0⟩)
      m hB hm.1 hm.2
    exact ⟨this.1, this.2.1⟩

theorem partition_covers (bnds : List Boundary) (offsetEnd numSegments accSize : Nat)
    (hB : 1 ≤ bnds.length) :
    CoverTo bnds offsetEnd 0 bnds.length
      (partitionBoundaries bnds offsetEnd numSegments accSize) := by
  unfold partitionBoundaries
  have hsplit : List.range bnds.length = List.range (bnds.length - 1) ++ [bnds.length - 1] := by
    conv_lhs => rw [show bnds.length = (bnds.length - 1) + 1 by omega]
    rw [List.range_succ]
  rw [hsplit, List.foldl_append]
  dsimp only [List.foldl]
  have hm := partFold_inv bnds offsetEnd numSegments (accSize / numSegments) hB
    (bnds.length - 1) (by omega)
  have hstep := partStep_inv bnds offsetEnd numSegments (accSize / numSegments)
    ((List.range (bnds.length - 1)).foldl
      (partStep bnds offsetEnd numSegments bnds.length (accSize / numSegments)) ⟨[], 0, 0⟩)
    (bnds.length - 1) hB hm.1 hm.2
  have hfinal := hstep.2.2 rfl
  rw [show bnds.length - 1 + 1 = bnds.length from by omega] at hfinal
  have hcov := hstep.2.1
  rw [hfinal] at hcov
  exact hcov

theorem skel_head_of_drop_cons (skel : List (Nat × Nat)) (i : Nat) (q : Nat × Nat)
    (tail : List (Nat × Nat)) (h : skel.drop i = q :: tail) : skel[i]? = some q := by
  have h0 := List.getElem?_drop skel i 0
  rw [h] at h0
  simpa using h0.symm

theorem boundary_components (bnds : List Boundary) (skel : List (Nat × Nat))
    (hskel : bnds.map (fun b => (b.offset, b.blockIndex)) = skel)
    (i : Nat) (q : Nat × Nat) (hq : skel[i]? = some q) :
    (bnds.getD i ⟨0, 0, 0⟩).offset = q.1 ∧ (bnds.getD i ⟨0, 0, 0⟩).blockIndex = q.2 := by
  have hmap : (bnds.map (fun b => (b.offset, b.blockIndex)))[i]? = some q := by
    rw [hskel]
    exact hq
  rw [List.getElem?_map] at hmap
  cases hb : bnds[i]? with
  | none => rw [hb] at hmap; simp at hmap
  | some b =>
    rw [hb] at hmap
    simp only [Option.map_some'] at hmap
    have hgd : bnds.getD i ⟨0, 0, 0⟩ = b := by
      rw [List.getD_eq_getElem?_getD, hb]
      rfl
    have hq2 : (b.offset, b.blockIndex) = q := Option.some.inj hmap
    rw [hgd, ← hq2]
    exact ⟨rfl, rfl⟩

theorem collectSegments_of_cover (dec : List Nat → List Nat → List Nat)
    (lzmaDec : List Nat → Except String (List Nat)) (region6 keymap : List Nat)
    (keyIndex : Nat) (offsetEnd stop : Nat) (bnds : List Boundary) (skel : List (Nat × Nat))
    (hskel : bnds.map (fun b => (b.offset, b.blockIndex)) = skel)
    (hmemEnd : ∀ p ∈ skel, p.1 < offsetEnd) :
    ∀ {a b : Nat} {segs : List Segment}, CoverTo bnds offsetEnd a b segs → b = bnds.length →
      ∀ cur D, Chain dec lzmaDec region6 keymap keyIndex cur a (skel.drop a) stop D →
      ∃ parts, collectSegments dec lzmaDec region6 keymap keyIndex segs = Except.ok parts ∧
        parts.flatten = D := by
  have hlen : skel.length = bnds.length := by rw [← hskel]; simp
  intro a b segs hcov
  induction hcov with
  | nil n =>
    intro hb cur D hchain
    have hdropnil : skel.drop n = [] := List.drop_eq_nil_of_le (by omega)
    rw [hdropnil] at hchain
    obtain ⟨_, hD⟩ := chain_nil_inv dec lzmaDec region6 keymap keyIndex cur n stop D hchain
    subst hD
    exact ⟨[], rfl, rfl⟩
  | cons a mid b rest hamid hmidb hrest ih =>
    intro hb cur D hchain
    subst hb
    have hsplit : skel.drop a = (skel.drop a).take (mid - a) ++ skel.drop mid := by
      conv_lhs => rw [← List.take_append_drop (mid - a) (skel.drop a)]
      congr 1
      rw [List.drop_drop]
      congr 1
      omega
    rw [hsplit] at hchain
    obtain ⟨midOff, D₁, D₂, hD, hc₁, hc₂, hhead⟩ :=
      chain_append dec lzmaDec region6 keymap keyIndex ((skel.drop a).take (mid - a))
        (skel.drop mid) cur a stop D hchain
    have hsublen : ((skel.drop a).take (mid - a)).length = mid - a := by
      rw [List.length_take, List.length_drop]
      omega
    obtain ⟨sq, subtail, hsubcons⟩ : ∃ q t, (skel.drop a).take (mid - a) = q :: t := by
      cases hc : (skel.drop a).take (mid - a) with
      | nil => rw [hc] at hsublen; simp at hsublen; omega
      | cons q t => exact ⟨q, t, rfl⟩
    rw [hsubcons] at hc₁ hsublen
    rw [hsubcons] at hsplit
    obtain ⟨sqo, sqj⟩ := sq
    obtain ⟨ho, hj, _, _, _, _, _, _⟩ :=
      chain_cons_inv dec lzmaDec region6 keymap keyIndex cur a midOff sqo sqj subtail D₁ hc₁
    have hget_a : skel[a]? = some (sqo, sqj) := by
      apply skel_head_of_drop_cons skel a _ (subtail ++ skel.drop mid)
      rw [hsplit]
      rfl
    obtain ⟨hboff, hbidx⟩ := boundary_components bnds skel hskel a (sqo, sqj) hget_a
    set seg := mkCoverSegment bnds offsetEnd a mid with hsegdef
    have hso : seg.startOffset = cur := by
      rw [hsegdef]
      unfold mkCoverSegment
      dsimp only
      rw [hboff, ho]
    have hsb : seg.startBlockIndex = a := by
      rw [hsegdef]
      unfold mkCoverSegment
      dsimp only
      rw [hbidx, hj]
    have hnb : seg.numBlocks = mid - a := rfl
    have hmemsub : ∀ p ∈ (sqo, sqj) :: subtail, p.1 < seg.endOffset := by
      have hend : seg.endOffset =
          if mid < bnds.length then (bnds.getD mid ⟨0, 0, 0⟩).offset else offsetEnd := rfl
      by_cases hmlt : mid < bnds.length
      · have hdropmidne : ∃ r rt, skel.drop mid = r :: rt := by
          cases hdm : skel.drop mid with
          | nil =>
            have := List.length_drop mid skel
            rw [hdm] at this
            simp at this
            omega
          | cons r rt => exact ⟨r, rt, rfl⟩
        obtain ⟨r, rt, hdm⟩ := hdropmidne
        have hmidOff : midOff = r.1 := hhead r rt hdm
        have hget_mid : skel[mid]? = some r := skel_head_of_drop_cons skel mid r rt hdm
        obtain ⟨hmoff, _⟩ := boundary_components bnds skel hskel mid r hget_mid
        have hoffs := (chain_offsets dec lzmaDec region6 keymap keyIndex cur a midOff
          ((sqo, sqj) :: subtail) D₁ hc₁).2
        intro p hp
        have := hoffs p hp
        rw [hend, if_pos hmlt, hmoff, ← hmidOff]
        omega
      · intro p hp
        rw [hend, if_neg hmlt]
        apply hmemEnd
        have hp1 : p ∈ (skel.drop a).take (mid - a) := by rw [hsubcons]; exact hp
        exact List.mem_of_mem_drop (List.mem_of_mem_take hp1)
    have hchainseg : Chain dec lzmaDec region6 keymap keyIndex cur (seg.startBlockIndex + 0)
        ((sqo, sqj) :: subtail) midOff D₁ := by
      rw [hsb]
      exact hc₁
    have hrun := segRun_of_chain dec lzmaDec region6 keymap keyIndex seg
      ((sqo, sqj) :: subtail) 0 cur midOff D₁ hchainseg
      (by rw [hnb]; omega) hmemsub (seg.numBlocks + 1) (by rw [hnb]; omega)
    have hps : processSegment dec lzmaDec region6 keymap keyIndex seg = Except.ok D₁ := by
      unfold processSegment
      rw [hso, hrun]
    rw [hsubcons] at hc₂
    have hidxmid : a + ((sqo, sqj) :: subtail).length = mid := by omega
    rw [hidxmid] at hc₂
    obtain ⟨parts, hcollect, hflat⟩ := ih rfl midOff D₂ hc₂
    refine ⟨D₁ :: parts, ?_, ?_⟩
    · simp only [collectSegments]
      rw [hps, hcollect]
    · simp only [List.flatten]
      rw [hflat, ← hD]

/-- C1 (amended).  Segmenter equivalence: for every file entry with at
least one block (`length ≥ 1`) whose sequential block loop succeeds, and
every segment count `S ≥ 1`, the segmented pipeline — boundary scan,
partitioning, per-segment decrypt-decompress with key index
`keyIndex + startBlockIndex + j`, concatenation in segment order — yields
exactly the same byte sequence as the sequential loop. -/
theorem c1_segmenter_equivalence (dec : List Nat → List Nat → List Nat)
    (lzmaDec : List Nat → Except String (List Nat)) (region6 keymap : List Nat)
    (keyIndex offset length numSegments : Nat) (D : List Nat)
    (hS : 1 ≤ numSegments) (hL : 1 ≤ length)
    (hseq : processBlocksSequential dec lzmaDec region6 keymap keyIndex offset length =
      Except.ok D) :
    processBlocksSegmented dec lzmaDec region6 keymap keyIndex offset length numSegments =
      Except.ok D := by
  unfold processBlocksSequential at hseq
  cases hrun : seqBlocksRun dec lzmaDec region6 keymap keyIndex (offset + length)
      (length + 1) offset 0 with
  | none => rw [hrun] at hseq; exact absurd hseq (by simp)
  | some r =>
    rw [hrun] at hseq
    cases r with
    | error e => exact absurd hseq (by simp)
    | ok D' =>
      have hDD : D' = D := by
        simpa using hseq
      subst hDD
      obtain ⟨skel, stop, hchain, hmem, hstop⟩ := seqRun_toChain dec lzmaDec region6 keymap
        keyIndex (offset + length) (length + 1) offset 0 D' hrun
      have hskelne : skel ≠ [] := by
        intro he
        rw [he] at hchain
        obtain ⟨hsc, _⟩ := chain_nil_inv dec lzmaDec region6 keymap keyIndex offset 0 stop
          D' hchain
        omega
      have hlenle : skel.length ≤ length := by
        have := chain_length_le dec lzmaDec region6 keymap keyIndex (offset + length) skel
          offset 0 stop D' hchain hmem
        omega
      obtain ⟨bnds, total, hscan, hmap⟩ := scanRun_of_chain dec lzmaDec region6 keymap
        keyIndex (offset + length) skel offset 0 stop D' hchain hmem hstop (length + 1) 0
        (by omega)
      have hblen : bnds.length = skel.length := by rw [← hmap]; simp
      have hskellen : 1 ≤ skel.length := by
        cases skel with
        | nil => exact absurd rfl hskelne
        | cons p t => simp
      have hB : 1 ≤ bnds.length := by omega
      unfold processBlocksSegmented splitFileIntoSegments
      dsimp only
      rw [hscan]
      dsimp only
      rw [if_neg (by omega)]
      dsimp only
      have hcov := partition_covers bnds (offset + length) numSegments total hB
      obtain ⟨parts, hcollect, hflat⟩ := collectSegments_of_cover dec lzmaDec region6 keymap
        keyIndex (offset + length) stop bnds skel hmap hmem hcov rfl offset D' hchain
      rw [hcollect]
      dsimp only
      rw [hflat]

/-- Counterexample for C1 as stated: a zero-block entry
(`length = 0`).  The sequential loop succeeds with the empty output, but
the segmented path finds no valid blocks and fails — the two paths do not
produce the same byte sequence for every entry and every `S ≥ 1`. -/
theorem c1_zero_block_counterexample :
    processBlocksSequential decConst lzmaOk [] [] 0 0 0 = Except.ok [] ∧
    splitFileIntoSegments [] 0 0 1 = Except.error errNoValidBlocks ∧
    processBlocksSegmented decConst lzmaOk [] [] 0 0 0 1 = Except.error errNoValidBlocks :=
  ⟨rfl, rfl, rfl⟩

set_option maxRecDepth 8192 in
/-- Witness for C1 (amended) on the one-block demonstration region with
segment count 3 (more segments than blocks). -/
theorem c1_segmenter_equivalence_witness :
    1 ≤ 3 ∧ 1 ≤ 224 ∧
    processBlocksSequential decConst lzmaOk demoRegion6 demoKeymap 0 0 224 = Except.ok [] ∧
    processBlocksSegmented decConst lzmaOk demoRegion6 demoKeymap 0 0 224 3 = Except.ok [] :=
  ⟨by decide, by decide, by rfl,
   c1_segmenter_equivalence decConst lzmaOk demoRegion6 demoKeymap 0 0 224 3 []
     (by decide) (by decide) (by rfl)⟩

end NTPIDump
